import Mathlib

/-!
Shallow embedding of the "maid" chat backend (TypeScript) for specification
checking. Pure functions of the source are translated into executable Lean
definitions; stateful code is modelled by explicit state passing; the LLM,
the embedding provider and the vector-similarity search of the database are
modelled as oracle parameters that the theorems quantify over.

JavaScript strings are modelled as Lean `String` values (lists of unicode
scalar characters); the ASCII core of `toLowerCase`/`toUpperCase` is
modelled exactly, and the ECMAScript whitespace class is modelled by an
explicit character set.
-/

namespace Maid

/-- The ECMAScript whitespace class used by the regexes and by trimming
(the common members; the remaining Zs code points behave identically for
every claim below). -/
def isJsWs (c : Char) : Bool :=
  c == ' ' || c == '\t' || c == '\n' || c == '\r' || c == '\x0b' ||
  c == '\x0c' || c == '\u00A0' || c == '\uFEFF' || c == '\u2028' || c == '\u2029'

/-- ASCII core of `String.prototype.toLowerCase`. -/
def jsLower (c : Char) : Char :=
  if 'A' ≤ c ∧ c ≤ 'Z' then Char.ofNat (c.toNat + 32) else c

/-- ASCII core of `String.prototype.toUpperCase`. -/
def jsUpper (c : Char) : Char :=
  if 'a' ≤ c ∧ c ≤ 'z' then Char.ofNat (c.toNat - 32) else c

/-- Character class `[a-z0-9]` of the normalisation regex. -/
def isLowerAlnum (c : Char) : Bool :=
  ('a' ≤ c && c ≤ 'z') || ('0' ≤ c && c ≤ '9')

/-- One character of `value.toLowerCase().replace(/[^a-z0-9\s]/g, ' ')`:
lowercase it, keep it when it is `[a-z0-9]` or whitespace, else replace it
by a space. -/
def normChar (c : Char) : Char :=
  let l := jsLower c
  if isLowerAlnum l || isJsWs l then l else ' '

/-- `replace(/\s+/g, ' ')`: every maximal run of whitespace characters
becomes one space. -/
def collapseWs : List Char → List Char
  | [] => []
  | [c] => [if isJsWs c then ' ' else c]
  | c :: c2 :: rest =>
    if isJsWs c then
      (if isJsWs c2 then collapseWs (c2 :: rest) else ' ' :: collapseWs (c2 :: rest))
    else c :: collapseWs (c2 :: rest)

/-- Drop trailing JS whitespace. -/
def trimEnd (cs : List Char) : List Char :=
  ((cs.reverse.dropWhile fun c => isJsWs c)).reverse

/-- `String.prototype.trim` on a character list. -/
def jsTrimList (cs : List Char) : List Char :=
  trimEnd (cs.dropWhile fun c => isJsWs c)

/-- `String.prototype.trim`. -/
def jsTrim (s : String) : String :=
  String.mk (jsTrimList s.data)

/-- `normalizeText` of `src/memory/extraction.ts`:
`value.toLowerCase().replace(/[^a-z0-9\s]/g, ' ').replace(/\s+/g, ' ').trim()`. -/
def normalizeText (value : String) : String :=
  String.mk (jsTrimList (collapseWs (value.data.map normChar)))

/-- `a.includes(b)` on JS strings: substring containment. -/
def strIncludes (hay needle : String) : Bool :=
  decide (needle.data <:+: hay.data)

-- -------- ConnectionKeyStore (src/index.ts) --------

/-- One entry of the `wsConnectionKeys` map. -/
structure WsConnectionKey where
  userId : String
  sessionId : Option Nat
  expiresAt : Nat
deriving DecidableEq, Repr

/-- The process-local `wsConnectionKeys : Map<string, WsConnectionKey>`. -/
def KeyStore : Type := String → Option WsConnectionKey

/-- `createWsConnectionKey` of `src/index.ts`. The random UUID key and the
clock reading `Date.now()` are parameters; `ttl` is
`env.WS_CONNECTION_KEY_TTL_MS`. Returns the updated map and the `expiresAt`
it reports. -/
def createWsConnectionKey (store : KeyStore) (key : String) (userId : String)
    (sessionId : Option Nat) (now ttl : Nat) : KeyStore × Nat :=
  (fun k => if k = key then some ⟨userId, sessionId, now + ttl⟩ else store k, now + ttl)

/-- `consumeWsConnectionKey` of `src/index.ts`: look the key up; when absent
return none with the map unchanged; otherwise delete the entry, and return
its `userId`/`sessionId` only when it has not yet expired. -/
def consumeWsConnectionKey (store : KeyStore) (key : String) (now : Nat) :
    Option (String × Option Nat) × KeyStore :=
  match store key with
  | none => (none, store)
  | some found =>
    let store2 : KeyStore := fun k => if k = key then none else store k
    if found.expiresAt ≤ now then (none, store2)
    else (some (found.userId, found.sessionId), store2)

-- -------- Memory actions (src/memory/extraction.ts, src/memory/prompts.ts) --------

/-- `MemoryAction` (the inferred type of `MemoryUpdateItemSchema`): `event`
is carried as a plain string because `parseActionsFromJson` performs no
validation (it is a TypeScript cast) — only the pipe parser and the Zod
schema constrain it. `old_memory := none` models an absent field. -/
structure MemoryAction where
  event : String
  id : String
  text : String
  old_memory : Option String := none
deriving DecidableEq, Repr

/-- The exact mathematical integer step of `Number.parseInt(s, 10)`: skip
leading whitespace, optional sign, then the longest digit prefix; `NaN`
(here `none`) when no digit follows. The Number the source sees is this
value rounded to binary64 — `parseIntDouble` below. -/
def jsParseInt (s : String) : Option Int :=
  let cs := s.data.dropWhile (fun c => isJsWs c)
  let body := if cs.head? = some '-' ∨ cs.head? = some '+' then cs.tail else cs
  let digits := body.takeWhile (fun c => '0' ≤ c && c ≤ '9')
  if digits.isEmpty then none
  else
    let mag : Nat := digits.foldl (fun acc c => acc * 10 + (c.toNat - 48)) 0
    some (if cs.head? = some '-' then -(mag : Int) else (mag : Int))

/-- Decimal digits of a natural number, most significant first (`fuel`
bounds the recursion; it is always called with `fuel > n`). -/
def decDigitsAux : Nat → Nat → List Char
  | 0, _ => []
  | fuel + 1, n =>
    if n < 10 then [Char.ofNat (48 + n)]
    else decDigitsAux fuel (n / 10) ++ [Char.ofNat (48 + n % 10)]

/-- Decimal digits of a natural number, most significant first. -/
def decDigits (n : Nat) : List Char :=
  decDigitsAux (n + 1) n

/-- The plain decimal numeral of an integer `m` (the exact-value printer;
`String(m)` for a double is `jsNumberToString` below, which agrees with
this only on the exactly-representable range). -/
def intToDecString (m : Int) : String :=
  if m < 0 then String.mk ('-' :: decDigits m.natAbs) else String.mk (decDigits m.toNat)

/-- `⌊log2 n⌋` by fuelled halving (kernel-reducible, unlike `Nat.log2`). -/
def bitLenAux : Nat → Nat → Nat
  | 0, _ => 0
  | fuel + 1, n => if n < 2 then 0 else bitLenAux fuel (n / 2) + 1

/-- `⌊log2 n⌋` for `n ≥ 1`. -/
def floorLog2 (n : Nat) : Nat := bitLenAux (n + 1) n

/-- Round a natural number to the nearest binary64-representable integer
(round half to even): exact up to 2^53, beyond that snapped to a multiple
of the unit in the last place `2 ^ (⌊log2 n⌋ - 52)`. -/
def roundNat53 (n : Nat) : Nat :=
  if n < 2 ^ 53 then n
  else
    let e := floorLog2 n - 52
    let p := 2 ^ e
    let q := n / p
    let r := n % p
    if r * 2 < p then q * p
    else if p < r * 2 then (q + 1) * p
    else if q % 2 = 0 then q * p else (q + 1) * p

/-- Binary64 rounding of an integer (rounding is symmetric in the sign). -/
def roundD (v : Int) : Int :=
  if v < 0 then -(roundNat53 v.natAbs : Int) else (roundNat53 v.natAbs : Int)

/-- Integers of at least this magnitude round to an IEEE-754 infinity. -/
def dblOverflow : Nat := 2 ^ 1024 - 2 ^ 970

/-- A JavaScript number as `parseInt` can produce it: a finite
integer-valued double, or an infinity (`NaN` is `none` at the call sites). -/
inductive JsNum where
  | fin (v : Int)
  | inf
  | ninf
deriving DecidableEq, Repr

/-- `Number.parseInt(s, 10)`: the exact integer denoted by the parsed
digits (`jsParseInt`), converted to a double. -/
def parseIntDouble (s : String) : Option JsNum :=
  (jsParseInt s).map (fun v =>
    if dblOverflow ≤ v.natAbs then (if v < 0 then JsNum.ninf else JsNum.inf)
    else JsNum.fin (roundD v))

/-- The best `k`-digit decimal candidate (a value `s * 10 ^ j` with
`j = digits - k`) that rounds back to the double value `v`, when one
exists: of the two bracketing candidates the nearer one (the lower on a
tie). -/
def rtCand (v : Nat) (j : Nat) : Option Nat :=
  let p := 10 ^ j
  let s0 := v / p
  let c1 := s0 * p
  let c2 := (s0 + 1) * p
  let ok := fun c => decide (roundNat53 c = v)
  if ok c1 && ok c2 then some (if v - c1 ≤ c2 - v then c1 else c2)
  else if ok c1 then some c1
  else if ok c2 then some c2
  else none

/-- Search for the shortest decimal that rounds back to `v`, shortest
candidates first (integer case of ECMAScript `Number::toString`; where the
standard leaves the choice between equally short candidates open, the
nearest one is taken). -/
def shortestDecGo (v : Nat) : Nat → Nat → Nat
  | _, 0 => v
  | k, fuel + 1 =>
    match rtCand v ((decDigits v).length - k) with
    | some c => c
    | none => shortestDecGo v (k + 1) fuel

/-- The value actually printed for the double `v`: the shortest decimal
that rounds back to it. -/
def shortestDec (v : Nat) : Nat :=
  if v = 0 then 0 else shortestDecGo v 1 (decDigits v).length

/-- ECMAScript `String(v)` for a nonnegative integer-valued double: the
shortest round-tripping decimal, positional up to 21 digits and
exponential (`d.ddde+NN`) beyond. -/
def jsNatToString (v : Nat) : String :=
  if v = 0 then "0"
  else
    let c := shortestDec v
    let ds := decDigits c
    if ds.length ≤ 21 then String.mk ds
    else
      let sds := (ds.reverse.dropWhile (fun d => d = '0')).reverse
      match sds with
      | [] => "0"
      | d :: rest =>
        String.mk [d] ++ (if rest.isEmpty then "" else "." ++ String.mk rest) ++
          "e+" ++ String.mk (decDigits (ds.length - 1))

/-- ECMAScript `String(v)` for an integer-valued double. -/
def jsNumberToString (v : Int) : String :=
  if v < 0 then "-" ++ jsNatToString v.natAbs else jsNatToString v.toNat

/-- `normalizeText`-based fuzzy containment `hasTextMatch` of
`src/memory/extraction.ts`. -/
def hasTextMatch (fact : String) (values : List String) : Bool :=
  let normalizedFact := normalizeText fact
  values.any (fun text =>
    let normalizedText := normalizeText text
    strIncludes normalizedText normalizedFact || strIncludes normalizedFact normalizedText)

/-- JS `Map.set` on an association list: replace in place or append. -/
def mapSet (m : List (String × String)) (k v : String) : List (String × String) :=
  if m.any (fun p => p.1 = k) then m.map (fun p => if p.1 = k then (k, v) else p)
  else m ++ [(k, v)]

/-- JS `Map.delete` on an association list. -/
def mapDelete (m : List (String × String)) (k : String) : List (String × String) :=
  m.filter (fun p => ¬(p.1 = k))

/-- The simulation loop of `backfillMissingFactAdds`: existing texts with
`DELETE` applied, `UPDATE`/`NONE` texts written through, plus the `ADD`
texts. -/
def simulatedFinalTexts (actions : List MemoryAction) (existing : List (String × String)) :
    List String :=
  let step := fun (st : List (String × String) × List String) (action : MemoryAction) =>
    if action.event = "ADD" then (st.1, st.2 ++ [action.text])
    else if action.event = "DELETE" then (mapDelete st.1 action.id, st.2)
    else (mapSet st.1 action.id action.text, st.2)
  let init : List (String × String) × List String :=
    (existing.foldl (fun m p => mapSet m p.1 p.2) [], [])
  let res := actions.foldl step init
  res.1.map (fun p => p.2) ++ res.2

/-- The auto-generated `ADD` actions (`String(nextId++)` per missing
fact), with the increment performed in double arithmetic. -/
def autoAddActions (nextId : Int) : List String → List MemoryAction
  | [] => []
  | f :: rest =>
    { id := jsNumberToString nextId, text := f, event := "ADD" } ::
      autoAddActions (roundD (nextId + 1)) rest

/-- The max over the finite `Number.parseInt(action.id, 10)` values with
`-1` as the seed, as in `backfillMissingFactAdds`
(`filter(Number.isFinite)` drops `NaN` and the infinities, so the fold
runs over exact values of finite doubles). -/
def maxNumericId (actions : List MemoryAction) : Int :=
  (actions.filterMap (fun a =>
    match parseIntDouble a.id with
    | some (JsNum.fin v) => some v
    | _ => none)).foldl (fun mx i => max mx i) (-1)

/-- `backfillMissingFactAdds` of `src/memory/extraction.ts`
(`nextId = maxId + 1` is an IEEE addition of two doubles). -/
def backfillMissingFactAdds (actions : List MemoryAction) (existing : List (String × String))
    (facts : List String) : List MemoryAction :=
  let finalTexts := simulatedFinalTexts actions existing
  let missingFacts := facts.filter (fun fact => !(hasTextMatch fact finalTexts))
  if missingFacts.isEmpty then actions
  else actions ++ autoAddActions (roundD (maxNumericId actions + 1)) missingFacts

-- -------- repairInvalidActions (src/memory/extraction.ts) --------

/-- `tempToReal` (`IdMap`): temp id to real database id. -/
def IdMap : Type := String → Option Nat

/-- `idMap.has(k)`. -/
def hasId (idMap : IdMap) (k : String) : Bool :=
  (idMap k).isSome

/-- The filter for invalid actions:
`(action.event === 'UPDATE' || action.event === 'DELETE') && !idMap.has(action.id)`. -/
def isInvalidUD (idMap : IdMap) (a : MemoryAction) : Bool :=
  (a.event == "UPDATE" || a.event == "DELETE") && !(hasId idMap a.id)

/-- The in-place mutation performed on a matched `NONE` action:
`match.event = action.event; match.old_memory = action.old_memory;`
and for `UPDATE` also `match.text = action.text`. -/
def transplantOf (b n : MemoryAction) : MemoryAction :=
  { n with
    event := b.event
    old_memory := b.old_memory
    text := if b.event == "UPDATE" then b.text else n.text }

/-- `noneActionsByText`: the JS map from text to the (position of the) last
`NONE` action with a known id carrying that text. -/
def initNoneByText (actions : List MemoryAction) (idMap : IdMap) :
    String → Option (Nat × MemoryAction) :=
  actions.enum.foldl
    (fun m p =>
      if p.2.event == "NONE" && hasId idMap p.2.id
      then fun t => if t = p.2.text then some p else m t
      else m)
    (fun _ => none)

/-- The evolving state of the repair loop: the remaining `noneActionsByText`
entries, the transplants applied so far (keyed by the position of the
mutated object), and `droppedIds`. -/
structure RepairState where
  noneByText : String → Option (Nat × MemoryAction)
  transplants : Nat → Option MemoryAction
  droppedIds : List String

/-- One iteration of the loop over `invalidActions`: skip when
`old_memory` is falsy or unmatched, else transplant onto the matched
`NONE` action, record the dropped id, and delete the map entry. -/
def repairStep (s : RepairState) (a : MemoryAction) : RepairState :=
  match a.old_memory with
  | none => s
  | some t =>
    if t = "" then s
    else
      match s.noneByText t with
      | none => s
      | some (pos, n) =>
        { noneByText := fun u => if u = t then none else s.noneByText u
          transplants := fun i => if i = pos then some (transplantOf a n) else s.transplants i
          droppedIds := a.id :: s.droppedIds }

/-- The state after the whole loop over `invalidActions`. -/
def repairFoldState (actions : List MemoryAction) (idMap : IdMap) : RepairState :=
  (actions.filter (fun a => isInvalidUD idMap a)).foldl repairStep
    ⟨initNoneByText actions idMap, fun _ => none, []⟩

/-- `repairInvalidActions` of `src/memory/extraction.ts`: the mutated list
(`transplants` applied positionally) with every action whose id is in
`droppedIds` filtered out. -/
def repairInvalidActions (actions : List MemoryAction) (idMap : IdMap) : List MemoryAction :=
  if (actions.filter (fun a => isInvalidUD idMap a)).isEmpty then actions
  else
    let s := repairFoldState actions idMap
    (actions.enum.map (fun p => (s.transplants p.1).getD p.2)).filter
      (fun a => !(s.droppedIds.contains a.id))

-- -------- JSON values and JSON.parse (ECMAScript builtin, modelled) --------

/-- Characters that are awkward to quote directly. -/
def lbraceChar : Char := Char.ofNat 123

def rbraceChar : Char := Char.ofNat 125

def backquoteChar : Char := Char.ofNat 96

/-- JSON values. Numbers keep their raw lexeme: no claim below depends on
numeric semantics. -/
inductive Json where
  | null
  | bool (b : Bool)
  | num (raw : String)
  | str (s : String)
  | arr (items : List Json)
  | obj (fields : List (String × Json))

/-- The JSON whitespace set (space, tab, line feed, carriage return). -/
def skipJsonWs (cs : List Char) : List Char :=
  cs.dropWhile (fun c => c == ' ' || c == '\t' || c == '\n' || c == '\r')

def parseHexDigit (c : Char) : Option Nat :=
  if '0' ≤ c ∧ c ≤ '9' then some (c.toNat - 48)
  else if 'a' ≤ c ∧ c ≤ 'f' then some (c.toNat - 87)
  else if 'A' ≤ c ∧ c ≤ 'F' then some (c.toNat - 55)
  else none

/-- Body of a JSON string literal (after the opening quote), with escape
processing; returns the decoded characters and the input after the closing
quote. -/
def parseStringBody : Nat → List Char → Option (List Char × List Char)
  | 0, _ => none
  | _, [] => none
  | fuel + 1, c :: rest =>
    if c = '"' then some ([], rest)
    else if c = '\\' then
      match rest with
      | [] => none
      | e :: rest2 =>
        let dec : Option (Char × List Char) :=
          if e = '"' then some ('"', rest2)
          else if e = '\\' then some ('\\', rest2)
          else if e = '/' then some ('/', rest2)
          else if e = 'b' then some ('\x08', rest2)
          else if e = 'f' then some ('\x0c', rest2)
          else if e = 'n' then some ('\n', rest2)
          else if e = 'r' then some ('\r', rest2)
          else if e = 't' then some ('\t', rest2)
          else if e = 'u' then
            match rest2 with
            | h1 :: h2 :: h3 :: h4 :: rest3 =>
              match parseHexDigit h1, parseHexDigit h2, parseHexDigit h3, parseHexDigit h4 with
              | some a, some b, some c2, some d =>
                some (Char.ofNat (((a * 16 + b) * 16 + c2) * 16 + d), rest3)
              | _, _, _, _ => none
            | _ => none
          else none
        match dec with
        | none => none
        | some (decoded, rest3) =>
          match parseStringBody fuel rest3 with
          | none => none
          | some (body, rest4) => some (decoded :: body, rest4)
    else
      match parseStringBody fuel rest with
      | none => none
      | some (body, rest2) => some (c :: body, rest2)

/-- A number lexeme (lenient about the exact grammar; no claim depends on
numeric values). -/
def parseNumberLex (cs : List Char) : Option (Json × List Char) :=
  let isNumChar := fun c =>
    c == '-' || c == '+' || c == '.' || c == 'e' || c == 'E' || ('0' ≤ c && c ≤ '9')
  let lexeme := cs.takeWhile isNumChar
  if lexeme.isEmpty then none
  else some (Json.num (String.mk lexeme), cs.drop lexeme.length)

mutual

/-- Parse one JSON value. `fuel` bounds the recursion; `jsonParse` supplies
more than any input can consume. -/
def parseJsonValue : Nat → List Char → Option (Json × List Char)
  | 0, _ => none
  | fuel + 1, cs0 =>
    match skipJsonWs cs0 with
    | 'n' :: 'u' :: 'l' :: 'l' :: rest => some (Json.null, rest)
    | 't' :: 'r' :: 'u' :: 'e' :: rest => some (Json.bool true, rest)
    | 'f' :: 'a' :: 'l' :: 's' :: 'e' :: rest => some (Json.bool false, rest)
    | '"' :: rest =>
      match parseStringBody (fuel + 1) rest with
      | some (body, rest2) => some (Json.str (String.mk body), rest2)
      | none => none
    | '[' :: rest =>
      match skipJsonWs rest with
      | ']' :: rest2 => some (Json.arr [], rest2)
      | rest2 => parseJsonItems fuel rest2 []
    | c :: rest =>
      if c = lbraceChar then
        let r2 := skipJsonWs rest
        if r2.head? = some rbraceChar then some (Json.obj [], r2.tail)
        else parseJsonFields fuel r2 []
      else if c = '-' ∨ ('0' ≤ c ∧ c ≤ '9') then parseNumberLex (c :: rest)
      else none
    | [] => none

/-- Array items, after at least one element is known to follow. -/
def parseJsonItems : Nat → List Char → List Json → Option (Json × List Char)
  | 0, _, _ => none
  | fuel + 1, cs, acc =>
    match parseJsonValue fuel cs with
    | none => none
    | some (v, rest) =>
      match skipJsonWs rest with
      | ',' :: rest2 => parseJsonItems fuel rest2 (acc ++ [v])
      | ']' :: rest2 => some (Json.arr (acc ++ [v]), rest2)
      | _ => none

/-- Object fields, after at least one field is known to follow. -/
def parseJsonFields : Nat → List Char → List (String × Json) → Option (Json × List Char)
  | 0, _, _ => none
  | fuel + 1, cs, acc =>
    match skipJsonWs cs with
    | '"' :: rest =>
      match parseStringBody (fuel + 1) rest with
      | none => none
      | some (key, rest2) =>
        match skipJsonWs rest2 with
        | ':' :: rest3 =>
          match parseJsonValue fuel rest3 with
          | none => none
          | some (v, rest4) =>
            match skipJsonWs rest4 with
            | ',' :: rest5 => parseJsonFields fuel rest5 (acc ++ [(String.mk key, v)])
            | c :: rest5 =>
              if c = rbraceChar then some (Json.obj (acc ++ [(String.mk key, v)]), rest5)
              else none
            | [] => none
        | _ => none
    | _ => none

end

/-- `JSON.parse`: the whole input must be one JSON value plus whitespace.
`none` models the thrown `SyntaxError`. -/
def jsonParse (s : String) : Option Json :=
  match parseJsonValue (s.length * 8 + 32) s.data with
  | none => none
  | some (v, rest) => if (skipJsonWs rest).isEmpty then some v else none

/-- Property read `obj[key]` (later duplicate keys win, as in JS). -/
def jsonGet (j : Json) (key : String) : Option Json :=
  match j with
  | Json.obj fields => (fields.reverse.find? (fun p => p.1 = key)).map (fun p => p.2)
  | _ => none

-- -------- extractJson / normalizeLines / the two LLM-output parsers --------

/-- Split at the first occurrence of a triple backquote; returns the text
before it and the text after it. -/
def splitAtTriple : List Char → Option (List Char × List Char)
  | [] => none
  | c :: rest =>
    if c = backquoteChar ∧ rest.head? = some backquoteChar ∧
        rest.tail.head? = some backquoteChar then
      some ([], rest.tail.tail)
    else
      match splitAtTriple rest with
      | none => none
      | some (pre, post) => some (c :: pre, post)

/-- After an opening fence: the optional `json` tag, greedy `\s*\n?`, then
the lazily matched capture group up to the closing fence. -/
def fenceTail (rest : List Char) : Option (List Char) :=
  let r1 := if rest.take 4 = ['j', 's', 'o', 'n'] then rest.drop 4 else rest
  let r2 := r1.dropWhile (fun c => isJsWs c)
  match splitAtTriple r2 with
  | some (content, _) => some content
  | none => none

/-- The regex `/(три)(?:json)?\s*\n?([\s\S]*?)(три)/` with `три` a triple
backquote: leftmost opening fence whose tail also contains a closing
fence. -/
def findFence : List Char → Option (List Char)
  | [] => none
  | c :: rest =>
    if c = backquoteChar ∧ rest.head? = some backquoteChar ∧
        rest.tail.head? = some backquoteChar then
      match fenceTail rest.tail.tail with
      | some content => some content
      | none => findFence rest
    else findFence rest

/-- The regex `/[\[\x7b][\s\S]*[\]\x7d]/`: from the leftmost opening
bracket that has some closing bracket after it, greedily to the last
closing bracket. -/
def bracesSlice (cs : List Char) : Option (List Char) :=
  let isOpen := fun c => c = '[' ∨ c = lbraceChar
  let isClose := fun c => c = ']' ∨ c = rbraceChar
  match cs.findIdx? (fun c => decide (isOpen c)),
      (cs.reverse.findIdx? (fun c => decide (isClose c))).map
        (fun k => cs.length - 1 - k) with
  | some i0, some j0 =>
    if i0 < j0 then some ((cs.drop i0).take (j0 - i0 + 1)) else none
  | _, _ => none

/-- `extractJson` of `src/memory/extraction.ts`. -/
def extractJson (raw : String) : String :=
  match findFence raw.data with
  | some content => jsTrim (String.mk content)
  | none =>
    match bracesSlice raw.data with
    | some slice => String.mk slice
    | none => jsTrim raw

/-- The string of three backquote characters. -/
def tripleBacktick : String :=
  String.mk [backquoteChar, backquoteChar, backquoteChar]

/-- `String.prototype.split` with a one-character separator. -/
def splitOnChar (sep : Char) : List Char → List (List Char)
  | [] => [[]]
  | c :: rest =>
    match splitOnChar sep rest with
    | [] => [[]]
    | seg :: segs => if c = sep then [] :: seg :: segs else (c :: seg) :: segs

/-- `s.split(sep)` for a one-character separator. -/
def jsSplitChar (sep : Char) (s : String) : List String :=
  (splitOnChar sep s.data).map String.mk

/-- `normalizeLines` of `src/memory/extraction.ts`. -/
def normalizeLines (raw : String) : List String :=
  (((jsSplitChar '\n' raw).map jsTrim).filter (fun line => line ≠ ""))
    |>.filter (fun line => line ≠ tripleBacktick)
    |>.filter (fun line => ¬(tripleBacktick.data.isPrefixOf line.data))

/-- `String.prototype.toUpperCase` (ASCII core). -/
def jsUpperStr (s : String) : String :=
  String.mk (s.data.map jsUpper)

/-- One row of the pipe-delimited action form (the `.map` body of
`parseMemoryActions`). -/
def parsePipeLine (row : String) : Option MemoryAction :=
  let parts := (jsSplitChar '|' row).map jsTrim
  match parts with
  | e :: i :: t :: rest =>
    let eU := jsUpperStr e
    if ¬(eU = "ADD" ∨ eU = "UPDATE" ∨ eU = "DELETE" ∨ eU = "NONE") then none
    else if i = "" then none
    else
      let o := rest.headD ""
      some ⟨eU, i, t, if o = "" then none else some o⟩
  | _ => none

/-- The unchecked cast `parsed.memory as MemoryAction[]`, read back into the
typed action. Faithful for items whose fields are strings; an absent
`event` is represented by its eventual schema default `NONE` (the source
carries `undefined` until schema validation); items whose `id`/`text` are
missing or not strings cannot be represented in the typed model and are
dropped (the source passes them through untyped, to be rejected by the Zod
schema later). -/
def castAction (j : Json) : Option MemoryAction :=
  match jsonGet j "id", jsonGet j "text" with
  | some (Json.str id), some (Json.str text) =>
    let event : Option String :=
      match jsonGet j "event" with
      | some (Json.str e) => some e
      | none => some "NONE"
      | some _ => none
    match event with
    | some e =>
      let om : Option String :=
        match jsonGet j "old_memory" with
        | some (Json.str s) => some s
        | _ => none
      some ⟨e, id, text, om⟩
    | none => none
  | _, _ => none

/-- `parseActionsFromJson`: JSON.parse the extracted region inside a
try/catch (`none` is the caught branch), then require `.memory` to be an
array. -/
def parseActionsFromJson (raw : String) : Option (List MemoryAction) :=
  match jsonParse (extractJson raw) with
  | none => none
  | some parsed =>
    match jsonGet parsed "memory" with
    | some (Json.arr items) => some (items.filterMap castAction)
    | _ => none

/-- `parseFactsFromJson`: as above with `.facts`, keeping only strings. -/
def parseFactsFromJson (raw : String) : Option (List String) :=
  match jsonParse (extractJson raw) with
  | none => none
  | some parsed =>
    match jsonGet parsed "facts" with
    | some (Json.arr items) =>
      some (items.filterMap (fun j => match j with | Json.str s => some s | _ => none))
    | _ => none

/-- `parseMemoryActions` of `src/memory/extraction.ts`. -/
def parseMemoryActions (raw : String) : List MemoryAction :=
  match parseActionsFromJson raw with
  | some asJson => asJson
  | none => (normalizeLines raw).filterMap parsePipeLine

/-- `row.replace(/^FACT:\s*/i, '')`. -/
def stripFactTag (row : String) : String :=
  let cs := row.data
  if (cs.take 5).map jsUpper = ['F', 'A', 'C', 'T', ':'] then
    String.mk ((cs.drop 5).dropWhile (fun c => isJsWs c))
  else row

/-- `[...new Set(xs)]`: dedupe keeping first occurrences. -/
def dedupAux (seen : List String) : List String → List String
  | [] => []
  | x :: rest =>
    if seen.contains x then dedupAux seen rest
    else x :: dedupAux (x :: seen) rest

/-- The line-based fallback branch of `parseFactList`. Note the source
applies `.trim()` after stripping the `FACT:` tag; `stripFactTag` already
removes the following whitespace, and a second trim is still applied for
fidelity. -/
def parseFactLines (raw : String) : List String :=
  let rows := normalizeLines raw
  if rows.isEmpty then []
  else if rows.length = 1 ∧ jsUpperStr (rows.headD "") = "NONE" then []
  else
    dedupAux []
      ((rows.map (fun row => jsTrim (stripFactTag row))).filter
        (fun x => x ≠ "" ∧ jsUpperStr x ≠ "NONE"))

/-- `parseFactList` of `src/memory/extraction.ts`. -/
def parseFactList (raw : String) : List String :=
  match parseFactsFromJson raw with
  | some asJson => asJson
  | none => parseFactLines raw

-- -------- generateActions (src/memory/extraction.ts) --------

/-- `MemoryUpdateItemSchema.parse` on one already-typed action: the `event`
enum is the only constraint that can still fail. -/
def zodActionItem (a : MemoryAction) : Option MemoryAction :=
  if a.event = "ADD" ∨ a.event = "UPDATE" ∨ a.event = "DELETE" ∨ a.event = "NONE"
  then some a else none

/-- `MemoryUpdateSchema.parse({memory: ...})`: an `Except.error` models the
thrown `ZodError`. -/
def zodParseActions (l : List MemoryAction) : Except Unit (List MemoryAction) :=
  match l.mapM zodActionItem with
  | some l2 => Except.ok l2
  | none => Except.error ()

/-- `MEMORY_EXTRACTION_RETRIES`. -/
def RETRIES : Nat := 3

/-- One `run(attempt)` of `generateActions`: the LLM response of call `k`
(the oracle composes `textGenerate` with `getUpdateMemoryPrompt`), parsed
and schema-validated. -/
def runAttempt (oracle : Nat → String) (k : Nat) : Except Unit (List MemoryAction) :=
  zodParseActions (parseMemoryActions (oracle k))

/-- `actions.filter(a => a.event !== 'ADD' && a.event !== 'NONE' && !idMap.has(a.id))`. -/
def invalidAfter (idMap : IdMap) (actions : List MemoryAction) : List MemoryAction :=
  actions.filter (fun a => !(a.event == "ADD") && !(a.event == "NONE") && !(hasId idMap a.id))

/-- The retry loop of `generateActions` (`for attempt in [1, RETRIES)`),
tracking how many LLM calls were made. -/
def generateActionsGo (oracle : Nat → String) (idMap : IdMap) :
    Nat → Nat → List MemoryAction → Except Unit (List MemoryAction × Nat)
  | 0, calls, actions => Except.ok (actions, calls)
  | fuel + 1, calls, actions =>
    if (invalidAfter idMap actions).isEmpty then Except.ok (actions, calls)
    else
      match runAttempt oracle (calls + 1) with
      | Except.error e => Except.error e
      | Except.ok a2 => generateActionsGo oracle idMap fuel (calls + 1) (repairInvalidActions a2 idMap)

/-- `generateActions` of `src/memory/extraction.ts`: first call, repair,
bounded retry while invalid UPDATE/DELETE ids remain, then backfill.
Returns the resulting actions and the number of LLM calls. -/
def generateActions (oracle : Nat → String) (existing : List (String × String))
    (facts : List String) (idMap : IdMap) : Except Unit (List MemoryAction × Nat) :=
  match runAttempt oracle 1 with
  | Except.error e => Except.error e
  | Except.ok a1 =>
    match generateActionsGo oracle idMap (RETRIES - 1) 1 (repairInvalidActions a1 idMap) with
    | Except.error e => Except.error e
    | Except.ok (actions, calls) =>
      Except.ok (backfillMissingFactAdds actions existing facts, calls)

-- -------- encoders used to state the parser round-trips --------

/-- The canonical JSON document `{memory: [...]}` of an action list
(an absent `old_memory` has no field). -/
def actionJson (a : MemoryAction) : Json :=
  Json.obj
    ([("id", Json.str a.id), ("text", Json.str a.text), ("event", Json.str a.event)] ++
      (match a.old_memory with
       | some om => [("old_memory", Json.str om)]
       | none => []))

/-- The `{memory:[{id,text,event,old_memory?}]}` document of an action list. -/
def memoryDoc (l : List MemoryAction) : Json :=
  Json.obj [("memory", Json.arr (l.map actionJson))]

/-- One `EVENT|ID|TEXT|OLD_MEMORY` line. -/
def encodePipeLine (a : MemoryAction) : String :=
  a.event ++ "|" ++ a.id ++ "|" ++ a.text ++ "|" ++ (a.old_memory.getD "")

/-- Join with newlines. -/
def joinNl : List String → String
  | [] => ""
  | [x] => x
  | x :: rest => x ++ "\n" ++ joinNl rest

/-- The pipe-delimited encoding of an action list. -/
def encodePipe (l : List MemoryAction) : String :=
  joinNl (l.map encodePipeLine)

/-- A string that survives the pipe container: no separators, no fence or
bracket characters that would trigger `extractJson`. -/
def pipeSafe (s : String) : Prop :=
  ∀ c ∈ s.data, ¬(c = '\n') ∧ ¬(c = '|') ∧ ¬(c = backquoteChar) ∧
    ¬(c = '[') ∧ ¬(c = lbraceChar)

/-- Hygiene of one action for the pipe round-trip: a canonical event tag, a
non-empty trim-stable id, a trim-stable text, and an `old_memory` that is
either absent or non-empty and trim-stable; all fields pipe-safe. -/
def actionPipeHygienic (a : MemoryAction) : Prop :=
  (a.event = "ADD" ∨ a.event = "UPDATE" ∨ a.event = "DELETE" ∨ a.event = "NONE")
  ∧ pipeSafe a.id ∧ pipeSafe a.text
  ∧ a.id ≠ "" ∧ jsTrim a.id = a.id ∧ jsTrim a.text = a.text
  ∧ (∀ om, a.old_memory = some om → om ≠ "" ∧ pipeSafe om ∧ jsTrim om = om)

-- -------- chat maid turns (src/ws/maids/chat.ts) --------

/-- Server frames sent over the socket (`src/ws/schema.ts`). -/
inductive Frame where
  | session_created (sessionId : Nat)
  | stream_start
  | stream_text_delta (delta : String)
  | stream_done (sessionId : Nat)
  | error (message : String)
deriving DecidableEq, Repr

/-- `ensureSession` of `src/ws/maids/chat.ts` (success path of
`sessionService.ensure`): reuse the cached session, else resolve
`ws.data.sessionId`, with `created` true exactly when the connection carried
no sessionId. `fresh` is the id the database INSERT returns. Gives
`((session.id, created), state.session after)`. -/
def ensureSession (dataSessionId : Option Nat) (stateSession : Option Nat)
    (fresh : Nat) : (Nat × Bool) × Option Nat :=
  match stateSession with
  | some s => ((s, false), some s)
  | none =>
    let created := dataSessionId.isNone
    let sid := match dataSessionId with
      | some sid => sid
      | none => fresh
    ((sid, created), some sid)

/-- The sent frames, persisted `(role, content)` rows and next cached
session of one turn. -/
structure TurnResult where
  frames : List Frame
  savedMessages : List (String × String)
  newState : Option Nat
deriving Repr

/-- `respondWithStream` of `src/ws/maids/chat.ts` on a turn whose awaits
resolve and whose LLM stream completes: ensure the session (emitting
`session_created` when it was just created), save the user message for an
input turn, emit `stream_start`, forward each delta, persist the trimmed
accumulated text as the assistant message (unconditionally), and emit
`stream_done` with the session id. `userMsg := none` is a welcome turn. -/
def respondWithStream (dataSessionId : Option Nat) (stateSession : Option Nat)
    (fresh : Nat) (userMsg : Option String) (deltas : List String) : TurnResult :=
  let r := ensureSession dataSessionId stateSession fresh
  let sid := r.1.1
  let created := r.1.2
  let createdFrames := if created then [Frame.session_created sid] else []
  let userSaves := match userMsg with
    | some c => [("user", c)]
    | none => []
  let assistantText := jsTrim (String.join deltas)
  { frames := createdFrames ++ Frame.stream_start ::
      (deltas.map Frame.stream_text_delta ++ [Frame.stream_done sid])
    savedMessages := userSaves ++ [("assistant", assistantText)]
    newState := r.2 }

/-- One queued welcome/input turn: the optional user message and the deltas
the LLM stream produces. -/
structure Turn where
  userMsg : Option String
  deltas : List String

/-- The per-connection sequence of turns: each runs `respondWithStream`
against the state the previous turn left, collecting the frames each turn
sends. `fresh k` is the id an INSERT on call `k` would return. -/
def runTurns (dataSessionId : Option Nat) (fresh : Nat → Nat) :
    List Turn → Option Nat → Nat → List (List Frame)
  | [], _, _ => []
  | tn :: rest, st, k =>
    let r := respondWithStream dataSessionId st (fresh k) tn.userMsg tn.deltas
    r.frames :: runTurns dataSessionId fresh rest r.newState (k + 1)

/-- Is this frame a `session_created`? -/
def isSC : Frame → Bool
  | Frame.session_created _ => true
  | _ => false

-- -------- the message handler of src/ws/index.ts --------

/-- One Zod issue (`path`, `message`). -/
structure ZIssue where
  path : List String
  message : String
deriving DecidableEq, Repr

/-- `Array.prototype.join` with a separator. -/
def joinSep (sep : String) : List String → String
  | [] => ""
  | [x] => x
  | x :: rest => x ++ sep ++ joinSep sep rest

/-- What `clientMessage.parse(JSON.parse(message))` can throw. -/
inductive ParseErr where
  | syntaxErr
  | zodErr (issues : List ZIssue)
  | otherErr (msg : String)
deriving DecidableEq, Repr

/-- `humanizeZodError` of `src/ws/index.ts`. -/
def humanizeZodError (issues : List ZIssue) : String :=
  joinNl (issues.map (fun i =>
    (if i.path.isEmpty then "root" else joinSep "." i.path) ++ ": " ++ i.message))

/-- `formatParseError` of `src/ws/index.ts`. -/
def formatParseError : ParseErr → String
  | ParseErr.syntaxErr => "invalid JSON"
  | ParseErr.zodErr issues => humanizeZodError issues
  | ParseErr.otherErr msg => msg

/-- A validated client message (`clientMessage` of `src/ws/schema.ts`). -/
inductive ClientMsg where
  | welcome
  | input (content : String)
  | abort
  | bye
deriving DecidableEq, Repr

/-- What one call of the `message` handler did. -/
structure HandlerResult where
  sent : List Frame
  closed : Bool
  queued : List ClientMsg
  abortSignalled : Bool
deriving DecidableEq, Repr

/-- The `message` handler of `streamWebSocketHandlers`
(`src/ws/index.ts`): on a parse/validation failure send one error frame and
return; else resolve the maid (unknown maid: error frame and close), handle
abort/bye inline, and queue welcome/input. -/
def handleTextFrame (maidId : String) (maidKnown : Bool)
    (parse : Except ParseErr ClientMsg) : HandlerResult :=
  match parse with
  | Except.error e =>
    { sent := [Frame.error (formatParseError e)], closed := false, queued := []
      abortSignalled := false }
  | Except.ok m =>
    if !maidKnown then
      { sent := [Frame.error ("unknown maidId: " ++ maidId)], closed := true
        queued := [], abortSignalled := false }
    else
      match m with
      | ClientMsg.abort =>
        { sent := [], closed := false, queued := [], abortSignalled := true }
      | ClientMsg.bye =>
        { sent := [], closed := true, queued := [], abortSignalled := true }
      | m2 =>
        { sent := [], closed := false, queued := [m2], abortSignalled := false }

-- -------- extractMemory (src/memory/extraction.ts) --------

/-- One row of `messages` as `extractMemory` sees it (joined on the user's
sessions). -/
structure MsgRow where
  id : Nat
  role : String
  content : String
  extractedAt : Option Nat
  createdAt : Nat
deriving DecidableEq, Repr

/-- The slice of the database `extractMemory` touches: the user's messages
and memories. -/
structure Db where
  messages : List MsgRow
  memories : List (Nat × String)
deriving DecidableEq, Repr

/-- `ExtractionResult`. -/
structure ExtractionResult where
  factsExtracted : Nat
  memoriesAdded : Nat
  memoriesUpdated : Nat
  memoriesDeleted : Nat
  memoriesUnchanged : Nat
deriving DecidableEq, Repr

/-- The all-zero stats object `extractMemory` starts from. -/
def zeroResult : ExtractionResult := ⟨0, 0, 0, 0, 0⟩

/-- Insert a row into a `createdAt`-ascending list. -/
def insertByCreated (m : MsgRow) : List MsgRow → List MsgRow
  | [] => [m]
  | x :: rest =>
    if m.createdAt ≤ x.createdAt then m :: x :: rest else x :: insertByCreated m rest

/-- Sort rows by `createdAt` ascending (`ORDER BY createdAt`). -/
def sortByCreated : List MsgRow → List MsgRow
  | [] => []
  | x :: rest => insertByCreated x (sortByCreated rest)

/-- The pending rows of `loadPendingMessages`: `extractedAt IS NULL`,
ordered by `createdAt`. -/
def pendingRows (db : Db) : List MsgRow :=
  sortByCreated (db.messages.filter (fun m => m.extractedAt.isNone))

/-- The `text` of `loadPendingMessages`. -/
def joinPending (rows : List MsgRow) : String :=
  joinNl (rows.map (fun r => r.role ++ ": " ++ r.content))

/-- `markMessagesExtracted`: no-op on an empty id list, else set
`extractedAt = now` on exactly those ids. -/
def markMessagesExtracted (db : Db) (ids : List Nat) (now : Nat) : Db :=
  if ids.isEmpty then db
  else
    { db with
      messages := db.messages.map (fun m =>
        if ids.contains m.id then { m with extractedAt := some now } else m) }

/-- `extractFacts`: LLM text generation (the oracle) followed by
`parseFactList`; `FactRetrievalSchema` on an already-typed string list is
the identity. -/
def extractFacts (factOracle : String → String) (text : String) : List String :=
  parseFactList (factOracle text)

/-- `extractMemory` of `src/memory/extraction.ts`. The embedding, vector
search, action generation and `applyActions` of the non-empty path are one
oracle `deep` (they only run when facts exist); `Except.error` models a
thrown error. -/
def extractMemory (factOracle : String → String)
    (deep : Db → List String → Except Unit (Db × ExtractionResult))
    (db : Db) (now : Nat) : Except Unit (Db × ExtractionResult) :=
  let rows := pendingRows db
  let ids := rows.map (fun r => r.id)
  if ids.isEmpty then Except.ok (db, zeroResult)
  else
    let facts := extractFacts factOracle (joinPending rows)
    if facts.isEmpty then
      Except.ok (markMessagesExtracted db ids now,
        { zeroResult with factsExtracted := facts.length })
    else
      match deep db facts with
      | Except.error e => Except.error e
      | Except.ok (db2, res) =>
        Except.ok (markMessagesExtracted db2 ids now,
          { res with factsExtracted := facts.length })

-- -------- concrete inputs used by witnesses and counterexamples --------

/-- A canonical one-action list for the round-trip witnesses. -/
def rtList : List MemoryAction := [⟨"ADD", "1", "hello", none⟩]

/-- Its JSON encoding, as an LLM would emit it. -/
def rtRaw : String :=
  "\x7b\"memory\":[\x7b\"id\":\"1\",\"text\":\"hello\",\"event\":\"ADD\"\x7d]\x7d"

/-- A JSON document whose single entry has an unknown event and an empty id. -/
def cexJsonRaw : String :=
  "\x7b\"memory\":[\x7b\"id\":\"\",\"text\":\"x\",\"event\":\"BOGUS\"\x7d]\x7d"

/-- Garbage LLM output: not JSON under any extraction. -/
def c10Raw : String := "not json at all"

/-- A NONE action with a known id followed by an UPDATE referencing an
unknown temp id whose `old_memory` matches the NONE action's text. -/
def cwActions : List MemoryAction :=
  [⟨"NONE", "0", "remembers cats", none⟩,
   ⟨"UPDATE", "7", "likes cats", some "remembers cats"⟩]

/-- `tempToReal` for the repair witness: only temp id `0` is known. -/
def cwIdMap : IdMap := fun k => if k = "0" then some 5 else none

/-- An invalid UPDATE whose `old_memory` is the empty string, next to a NONE
action with a known id whose text is also the empty string. -/
def cexRepairActions : List MemoryAction :=
  [⟨"UPDATE", "9", "newtext", some ""⟩, ⟨"NONE", "0", "", none⟩]

/-- `tempToReal` for the repair counterexample: only temp id `0` is known. -/
def cexRepairIdMap : IdMap := fun k => if k = "0" then some 1 else none

/-- One action whose id is `10^19`: exactly representable as a double, but
with a unit in the last place of 2048, so the double `maxId + 1` rounds
back to `maxId`. -/
def cexBigActions : List MemoryAction :=
  [⟨"NONE", "10000000000000000000", "t", none⟩]

/-- Fresh session ids for the turn witnesses. -/
def wFresh : Nat → Nat := fun k => k + 100

/-- Two turns: an input turn with two deltas, then a welcome turn. -/
def wTurns : List Turn := [⟨some "hi", ["a", "b"]⟩, ⟨none, []⟩]

/-- A maid id for the handler witness. -/
def wMaidId : String := "chat"

/-- Two Zod issues, one with an empty path. -/
def wIssues : List ZIssue :=
  [⟨[], "Required"⟩, ⟨["content"], "too small"⟩]

/-- A fact oracle that always answers `NONE` (no facts). -/
def wFactOracle : String → String := fun _ => "NONE"

/-- A deep-path oracle that would fail if it were ever consulted. -/
def wDeep : Db → List String → Except Unit (Db × ExtractionResult) :=
  fun _ _ => Except.error ()

/-- A database whose only message is already extracted. -/
def wDbA : Db := ⟨[⟨1, "user", "hello", some 10, 5⟩], [(1, "likes tea")]⟩

/-- A database with one pending message. -/
def wDbB : Db := ⟨[⟨3, "user", "hello", none, 5⟩], [(1, "likes tea")]⟩

-- ===================== THEOREMS =====================

theorem collapseWs_cons_not (c : Char) (l : List Char) (h : isJsWs c = false) :
    collapseWs (c :: l) = c :: collapseWs l := by
  cases l with
  | nil => simp [collapseWs, h]
  | cons d t => simp [collapseWs, h]

theorem collapseWs_cons_ws (c : Char) (l : List Char) (h : isJsWs c = true) :
    collapseWs (c :: l) = ' ' :: collapseWs (l.dropWhile fun x => isJsWs x) := by
  induction l generalizing c with
  | nil => simp [collapseWs, h]
  | cons d t ih =>
    by_cases hd : isJsWs d
    · simp only [collapseWs, h, hd, if_true, List.dropWhile_cons]
      exact ih d hd
    · simp [collapseWs, h, hd, List.dropWhile_cons]

theorem dropWhile_allsat {p : Char → Bool} {w : List Char} (hw : ∀ c ∈ w, p c = true)
    (x : List Char) : (w ++ x).dropWhile p = x.dropWhile p := by
  induction w with
  | nil => simp
  | cons c t ih =>
    simp only [List.cons_append, List.dropWhile_cons, hw c (by simp)]
    exact ih (fun d hd => hw d (by simp [hd]))

theorem dropWhile_idem {p : Char → Bool} (l : List Char) :
    (l.dropWhile p).dropWhile p = l.dropWhile p := by
  induction l with
  | nil => rfl
  | cons c t ih =>
    by_cases hc : p c
    · simp [List.dropWhile_cons, hc, ih]
    · simp [List.dropWhile_cons, hc]

theorem isJsWs_space : isJsWs ' ' = true := rfl

/-- Collapsing commutes with dropping leading whitespace. -/
theorem collapseWs_dropWhile (l : List Char) :
    collapseWs (l.dropWhile fun x => isJsWs x) =
      (collapseWs l).dropWhile fun x => isJsWs x := by
  induction l with
  | nil => rfl
  | cons c t ih =>
    by_cases hc : isJsWs c
    · rw [List.dropWhile_cons]
      simp only [hc, if_true]
      rw [collapseWs_cons_ws c t hc, List.dropWhile_cons]
      simp only [isJsWs_space, if_true]
      rw [ih]
      exact (dropWhile_idem _).symm
    · have h2 : isJsWs c = false := by simpa using hc
      rw [List.dropWhile_cons]
      simp only [h2, Bool.false_eq_true, if_false]
      rw [collapseWs_cons_not c t h2, List.dropWhile_cons]
      simp [h2]

theorem charOfNatToNat (n : Nat) (hv : Nat.isValidChar n) : (Char.ofNat n).toNat = n := by
  simp only [Char.toNat, Char.ofNat, hv, dif_pos]
  simp [UInt32.toNat, Char.ofNatAux]

theorem charLeIffToNat (a b : Char) : a ≤ b ↔ a.toNat ≤ b.toNat := Iff.rfl

theorem ws_cases (c : Char) (h : isJsWs c = true) :
    c = ' ' ∨ c = '\t' ∨ c = '\n' ∨ c = '\r' ∨ c = '\x0b' ∨ c = '\x0c' ∨
      c = '\u00A0' ∨ c = '\uFEFF' ∨ c = '\u2028' ∨ c = '\u2029' := by
  simp only [isJsWs, Bool.or_eq_true, beq_iff_eq] at h
  tauto

theorem jsLower_ws_fix (c : Char) (h : isJsWs c = true) : jsLower c = c := by
  rcases ws_cases c h with h | h | h | h | h | h | h | h | h | h <;> subst h <;> decide

theorem normChar_ws_fix (c : Char) (h : isJsWs c = true) : normChar c = c := by
  simp [normChar, jsLower_ws_fix c h, h]

theorem normChar_space : normChar ' ' = ' ' := by decide

theorem jsLower_alnum_fix (c : Char) (h : isLowerAlnum c = true) : jsLower c = c := by
  simp only [isLowerAlnum, Bool.or_eq_true, Bool.and_eq_true, decide_eq_true_eq] at h
  have hnot : ¬('A' ≤ c ∧ c ≤ 'Z') := by
    rintro ⟨u1, u2⟩
    rcases h with ⟨h1, h2⟩ | ⟨h1, h2⟩
    · exact absurd (le_trans h1 u2) (by decide)
    · exact absurd (le_trans u1 h2) (by decide)
  simp [jsLower, hnot]

theorem normChar_alnum_fix (c : Char) (h : isLowerAlnum c = true) : normChar c = c := by
  simp [normChar, jsLower_alnum_fix c h, h]

theorem jsLower_idem (c : Char) : jsLower (jsLower c) = jsLower c := by
  by_cases hc : 'A' ≤ c ∧ c ≤ 'Z'
  · have hle : c.toNat ≤ 90 := by
      have := (charLeIffToNat c 'Z').mp hc.2
      simpa using this
    have hz : (jsLower c).toNat = c.toNat + 32 := by
      have hv : Nat.isValidChar (c.toNat + 32) := by
        left
        omega
      simp only [jsLower, hc, if_true]
      exact charOfNatToNat _ hv
    have hge : 65 ≤ c.toNat := by
      have := (charLeIffToNat 'A' c).mp hc.1
      simpa using this
    have hnot : ¬('A' ≤ jsLower c ∧ jsLower c ≤ 'Z') := by
      rintro ⟨u1, u2⟩
      have h90 : (jsLower c).toNat ≤ 90 := by
        have := (charLeIffToNat (jsLower c) 'Z').mp u2
        simpa using this
      rw [hz] at h90
      omega
    conv_lhs => rw [jsLower]
    rw [if_neg hnot]
  · simp only [jsLower, hc, if_false]

theorem normChar_via_lower (c : Char) : normChar (jsLower c) = normChar c := by
  simp [normChar, jsLower_idem c]

theorem normChar_classes (c : Char) :
    isLowerAlnum (normChar c) = true ∨ isJsWs (normChar c) = true := by
  by_cases h : isLowerAlnum (jsLower c) || isJsWs (jsLower c)
  · simp only [normChar, h, if_true]
    simpa using h
  · right
    have hb : (isLowerAlnum (jsLower c) || isJsWs (jsLower c)) = false := by
      simpa using h
    simp [normChar, hb, isJsWs_space]

/-- Whitespace characters surviving `collapseWs` are all plain spaces, and
non-space survivors come from the input unchanged. -/
theorem mem_collapseWs (l : List Char) :
    ∀ c ∈ collapseWs l, c = ' ' ∨ (c ∈ l ∧ isJsWs c = false) := by
  induction l using collapseWs.induct with
  | case1 => intro c hc; simp [collapseWs] at hc
  | case2 d =>
    intro c hc
    by_cases hd : isJsWs d
    · simp only [collapseWs, hd, if_true, List.mem_singleton] at hc
      left; exact hc
    · simp only [collapseWs, hd, if_false, List.mem_singleton] at hc
      right
      subst hc
      simp [hd]
  | case3 d d2 rest h1 h2 ih =>
    intro c hc
    simp only [collapseWs, h1, h2, if_true] at hc
    rcases ih c hc with h | ⟨hm, hw⟩
    · left; exact h
    · right; exact ⟨by simp [hm], hw⟩
  | case4 d d2 rest h1 h2 ih =>
    intro c hc
    have h2f : isJsWs d2 = false := by simpa using h2
    simp only [collapseWs, h1, h2f, Bool.false_eq_true, if_true, if_false,
      List.mem_cons] at hc
    rcases hc with hc | hc
    · left; exact hc
    · rcases ih c hc with h | ⟨hm, hw⟩
      · left; exact h
      · right; exact ⟨by simp [hm], hw⟩
  | case5 d d2 rest h1 ih =>
    intro c hc
    have h1f : isJsWs d = false := by simpa using h1
    simp only [collapseWs, h1f, Bool.false_eq_true, if_false, List.mem_cons] at hc
    rcases hc with hc | hc
    · right; subst hc; exact ⟨by simp, h1f⟩
    · rcases ih c hc with h | ⟨hm, hw⟩
      · left; exact h
      · right; exact ⟨by simp [hm], hw⟩

/-- `collapseWs` output never has two adjacent whitespace characters. -/
theorem chain_collapseWs (l : List Char) :
    List.Chain' (fun a b => (isJsWs a && isJsWs b) = false) (collapseWs l) := by
  induction l using collapseWs.induct with
  | case1 => simp [collapseWs]
  | case2 d => by_cases hd : isJsWs d <;> simp [collapseWs, hd]
  | case3 d d2 rest h1 h2 ih => simpa [collapseWs, h1, h2] using ih
  | case4 d d2 rest h1 h2 ih =>
    have h2f : isJsWs d2 = false := by simpa using h2
    simp only [collapseWs, h1, h2f, Bool.false_eq_true, if_true, if_false]
    rw [List.chain'_cons']
    refine ⟨?_, ih⟩
    intro y hy
    rw [collapseWs_cons_not d2 rest h2f] at hy
    simp only [List.head?_cons, Option.mem_def, Option.some.injEq] at hy
    subst hy
    simp [h2f]
  | case5 d d2 rest h1 ih =>
    have h1f : isJsWs d = false := by simpa using h1
    simp only [collapseWs, h1f, Bool.false_eq_true, if_false]
    rw [List.chain'_cons']
    exact ⟨fun y _ => by simp [h1f], ih⟩

/-- A list with no adjacent whitespace whose whitespace is all plain spaces
is a fixed point of `collapseWs`. -/
theorem collapseWs_fix (z : List Char)
    (hchain : List.Chain' (fun a b => (isJsWs a && isJsWs b) = false) z)
    (hmem : ∀ c ∈ z, isJsWs c = true → c = ' ') : collapseWs z = z := by
  induction z using collapseWs.induct with
  | case1 => rfl
  | case2 d =>
    by_cases hd : isJsWs d
    · have : d = ' ' := hmem d (by simp) hd
      simp [collapseWs, hd, this]
    · simp [collapseWs, hd]
  | case3 d d2 rest h1 h2 ih =>
    exfalso
    rw [List.chain'_cons'] at hchain
    have := hchain.1 d2 (by simp)
    simp [h1, h2] at this
  | case4 d d2 rest h1 h2 ih =>
    have h2f : isJsWs d2 = false := by simpa using h2
    have hd : d = ' ' := hmem d (by simp) h1
    rw [List.chain'_cons'] at hchain
    simp only [collapseWs, h1, h2f, Bool.false_eq_true, if_true, if_false]
    rw [ih hchain.2 (fun c hc hw => hmem c (by simp [hc]) hw), hd]
  | case5 d d2 rest h1 ih =>
    have h1f : isJsWs d = false := by simpa using h1
    rw [List.chain'_cons'] at hchain
    simp only [collapseWs, h1f, Bool.false_eq_true, if_false]
    rw [ih hchain.2 (fun c hc hw => hmem c (by simp [hc]) hw)]

theorem chain_dropWhile {R : Char → Char → Prop} (p : Char → Bool) (l : List Char)
    (h : List.Chain' R l) : List.Chain' R (l.dropWhile p) := by
  obtain ⟨t, ht⟩ := List.dropWhile_suffix (l := l) p
  rw [← ht] at h
  exact h.right_of_append

theorem chain_trimEnd (l : List Char)
    (h : List.Chain' (fun a b => (isJsWs a && isJsWs b) = false) l) :
    List.Chain' (fun a b => (isJsWs a && isJsWs b) = false) (trimEnd l) := by
  unfold trimEnd
  rw [List.chain'_reverse]
  have h2 : List.Chain' (flip fun a b => (isJsWs a && isJsWs b) = false) l.reverse := by
    rw [List.chain'_reverse]
    exact h.imp (fun a b hab => by simpa [flip, Bool.and_comm] using hab)
  exact (chain_dropWhile _ _ h2).imp (fun a b hab => by simpa [flip, Bool.and_comm] using hab)

theorem mem_trimEnd (l : List Char) (c : Char) (h : c ∈ trimEnd l) : c ∈ l := by
  unfold trimEnd at h
  rw [List.mem_reverse] at h
  have := (List.dropWhile_sublist (l := l.reverse) (fun x => isJsWs x)).subset h
  simpa using this

theorem mem_jsTrimList (l : List Char) (c : Char) (h : c ∈ jsTrimList l) : c ∈ l := by
  unfold jsTrimList at h
  have := mem_trimEnd _ c h
  exact (List.dropWhile_sublist (l := l) (fun x => isJsWs x)).subset this

theorem chain_jsTrimList (l : List Char)
    (h : List.Chain' (fun a b => (isJsWs a && isJsWs b) = false) l) :
    List.Chain' (fun a b => (isJsWs a && isJsWs b) = false) (jsTrimList l) :=
  chain_trimEnd _ (chain_dropWhile _ _ h)

theorem dropWhile_head_not {p : Char → Bool} (l : List Char) (c : Char) (rest : List Char)
    (h : l.dropWhile p = c :: rest) : p c = false := by
  induction l with
  | nil => simp at h
  | cons a t ih =>
    rw [List.dropWhile_cons] at h
    by_cases ha : p a
    · simp only [ha, if_true] at h
      exact ih h
    · simp only [ha, Bool.false_eq_true, if_false] at h
      injection h with h1 h2
      subst h1
      simpa using ha

theorem trimEnd_idem (l : List Char) : trimEnd (trimEnd l) = trimEnd l := by
  unfold trimEnd
  rw [List.reverse_reverse, dropWhile_idem]

theorem trimEnd_isPrefix (l : List Char) : trimEnd l <+: l := by
  rw [← List.reverse_suffix]
  unfold trimEnd
  rw [List.reverse_reverse]
  exact List.dropWhile_suffix _

theorem dropWhile_of_head_not {p : Char → Bool} (l : List Char)
    (h : ∀ hne : l ≠ [], p (l.head hne) = false) : l.dropWhile p = l := by
  cases l with
  | nil => rfl
  | cons c t =>
    rw [List.dropWhile_cons]
    have := h (by simp)
    simp only [List.head_cons] at this
    simp [this]

theorem jsTrimList_idem (l : List Char) : jsTrimList (jsTrimList l) = jsTrimList l := by
  unfold jsTrimList
  have hdrop : (trimEnd (l.dropWhile fun c => isJsWs c)).dropWhile (fun c => isJsWs c)
      = trimEnd (l.dropWhile fun c => isJsWs c) := by
    cases htz : trimEnd (l.dropWhile fun c => isJsWs c) with
    | nil => rfl
    | cons c zt =>
      obtain ⟨t2, ht⟩ := trimEnd_isPrefix (l.dropWhile fun c => isJsWs c)
      rw [htz] at ht
      have hpc : isJsWs c = false := by
        apply dropWhile_head_not l c (zt ++ t2)
        rw [← ht]
        simp
      rw [List.dropWhile_cons]
      simp [hpc]
  rw [hdrop, trimEnd_idem]

theorem collapseWs_allWs (w : List Char) (hw : ∀ c ∈ w, isJsWs c = true) :
    collapseWs w = if w.isEmpty then [] else [' '] := by
  cases w with
  | nil => rfl
  | cons c t =>
    rw [collapseWs_cons_ws c t (hw c (by simp))]
    have : t.dropWhile (fun x => isJsWs x) = [] :=
      List.dropWhile_eq_nil_iff.mpr (fun x hx => hw x (by simp [hx]))
    simp [this, collapseWs]

theorem collapseWs_append_allWs (w x : List Char) (hw : ∀ c ∈ w, isJsWs c = true)
    (hne : w ≠ []) :
    collapseWs (w ++ x) = ' ' :: (collapseWs x).dropWhile (fun c => isJsWs c) := by
  cases w with
  | nil => exact absurd rfl hne
  | cons c t =>
    rw [List.cons_append, collapseWs_cons_ws c _ (hw c (by simp))]
    rw [dropWhile_allsat (fun d hd => hw d (by simp [hd])) x, collapseWs_dropWhile]

theorem trimEnd_cons (c : Char) (l : List Char) :
    trimEnd (c :: l) =
      if trimEnd l = [] then (if isJsWs c then [] else [c]) else c :: trimEnd l := by
  unfold trimEnd
  rw [List.reverse_cons, List.dropWhile_append]
  by_cases h : (l.reverse.dropWhile fun x => isJsWs x) = []
  · simp only [h, List.isEmpty_nil, List.reverse_nil, if_true, List.dropWhile_cons,
      List.dropWhile_nil]
    by_cases hc : isJsWs c <;> simp [hc]
  · have : ((l.reverse.dropWhile fun x => isJsWs x)).isEmpty = false := by
      simpa [List.isEmpty_iff] using h
    simp only [this, Bool.false_eq_true, if_false, List.reverse_append]
    have hrev : (l.reverse.dropWhile fun x => isJsWs x).reverse ≠ [] := by
      simpa using h
    simp [hrev]

theorem trimEnd_cons_not (c : Char) (l : List Char) (h : isJsWs c = false) :
    trimEnd (c :: l) = c :: trimEnd l := by
  rw [trimEnd_cons]
  by_cases he : trimEnd l = [] <;> simp [he, h]

theorem trimEnd_collapse_append_ws (w : List Char) (hw : ∀ c ∈ w, isJsWs c = true)
    (x : List Char) : trimEnd (collapseWs (x ++ w)) = trimEnd (collapseWs x) := by
  generalize hn : x.length = n
  induction n using Nat.strong_induction_on generalizing x with
  | _ n ih =>
  cases x with
  | nil =>
    simp only [List.nil_append]
    rw [collapseWs_allWs w hw]
    cases w with
    | nil => simp [collapseWs]
    | cons a b =>
      have e : trimEnd [' '] = [] := by decide
      simp [collapseWs, e, trimEnd, isJsWs_space]
  | cons c t =>
    by_cases hc : isJsWs c
    · rw [List.cons_append, collapseWs_cons_ws c _ hc, collapseWs_cons_ws c t hc]
      by_cases hall : (t.dropWhile fun x => isJsWs x) = []
      · have : ((t ++ w).dropWhile fun x => isJsWs x) = [] := by
          rw [List.dropWhile_append]
          simp only [hall, List.isEmpty_nil, if_true]
          exact List.dropWhile_eq_nil_iff.mpr (fun y hy => hw y hy)
        rw [this, hall]
      · have hsplit : ((t ++ w).dropWhile fun x => isJsWs x) =
            (t.dropWhile fun x => isJsWs x) ++ w := by
          rw [List.dropWhile_append]
          have : ((t.dropWhile fun x => isJsWs x)).isEmpty = false := by
            simpa [List.isEmpty_iff] using hall
          simp [this]
        rw [hsplit]
        have hlen : (t.dropWhile fun x => isJsWs x).length < n := by
          subst hn
          exact Nat.lt_succ_of_le (by
            have := List.dropWhile_sublist (l := t) (fun x => isJsWs x)
            exact this.length_le)
        have heq := ih _ hlen (t.dropWhile fun x => isJsWs x) rfl
        rw [trimEnd_cons, trimEnd_cons, heq]
    · have hcf : isJsWs c = false := by simpa using hc
      rw [List.cons_append, collapseWs_cons_not c _ hcf, collapseWs_cons_not c t hcf,
        trimEnd_cons_not _ _ hcf, trimEnd_cons_not _ _ hcf]
      have hlen : t.length < n := by subst hn; simp
      rw [ih _ hlen t rfl]

theorem jsTrimList_collapse_append_ws (w x : List Char)
    (hw : ∀ c ∈ w, isJsWs c = true) :
    jsTrimList (collapseWs (x ++ w)) = jsTrimList (collapseWs x) := by
  unfold jsTrimList
  rw [← collapseWs_dropWhile, ← collapseWs_dropWhile]
  by_cases hall : (x.dropWhile fun c => isJsWs c) = []
  · have : ((x ++ w).dropWhile fun c => isJsWs c) = [] := by
      rw [List.dropWhile_append]
      simp only [hall, List.isEmpty_nil, if_true]
      exact List.dropWhile_eq_nil_iff.mpr (fun y hy => hw y hy)
    rw [this, hall]
  · have hsplit : ((x ++ w).dropWhile fun c => isJsWs c) =
        (x.dropWhile fun c => isJsWs c) ++ w := by
      rw [List.dropWhile_append]
      have : ((x.dropWhile fun c => isJsWs c)).isEmpty = false := by
        simpa [List.isEmpty_iff] using hall
      simp [this]
    rw [hsplit, trimEnd_collapse_append_ws w hw]

theorem jsTrimList_collapse_ws_append (w x : List Char)
    (hw : ∀ c ∈ w, isJsWs c = true) :
    jsTrimList (collapseWs (w ++ x)) = jsTrimList (collapseWs x) := by
  cases w with
  | nil => rfl
  | cons a b =>
    rw [collapseWs_append_allWs (a :: b) x hw (by simp)]
    unfold jsTrimList
    rw [List.dropWhile_cons]
    simp only [isJsWs_space, if_true]
    rw [dropWhile_idem]

/-- The collapse of the normalised characters only depends on the collapse
of the raw characters. -/
theorem dropWhile_collapse_map_norm (t : List Char) :
    ((collapseWs ((t.dropWhile fun x => isJsWs x).map normChar)).dropWhile fun x => isJsWs x)
      = ((collapseWs (t.map normChar)).dropWhile fun x => isJsWs x) := by
  induction t with
  | nil => rfl
  | cons x t2 ih =>
    by_cases hx : isJsWs x
    · rw [List.dropWhile_cons]
      simp only [hx, if_true]
      rw [ih, List.map_cons, normChar_ws_fix x hx, collapseWs_cons_ws x _ hx,
        collapseWs_dropWhile, List.dropWhile_cons]
      simp only [isJsWs_space, if_true]
      rw [dropWhile_idem]
    · rw [List.dropWhile_cons]
      simp only [hx, Bool.false_eq_true, if_false]

theorem collapse_map_norm (l : List Char) :
    collapseWs ((collapseWs l).map normChar) = collapseWs (l.map normChar) := by
  generalize hn : l.length = n
  induction n using Nat.strong_induction_on generalizing l with
  | _ n ih =>
  cases l with
  | nil => rfl
  | cons c t =>
    by_cases hc : isJsWs c
    · rw [collapseWs_cons_ws c t hc]
      have hlen : (t.dropWhile fun x => isJsWs x).length < n := by
        subst hn
        exact Nat.lt_succ_of_le (List.dropWhile_sublist _).length_le
      have hIH := ih _ hlen (t.dropWhile fun x => isJsWs x) rfl
      simp only [List.map_cons, normChar_space]
      rw [collapseWs_cons_ws ' ' _ isJsWs_space, collapseWs_dropWhile, hIH]
      rw [normChar_ws_fix c hc, collapseWs_cons_ws c _ hc, collapseWs_dropWhile]
      congr 1
      exact dropWhile_collapse_map_norm t
    · have hcf : isJsWs c = false := by simpa using hc
      rw [collapseWs_cons_not c t hcf]
      simp only [List.map_cons]
      have hlen : t.length < n := by subst hn; simp
      have hIH := ih _ hlen t rfl
      by_cases hn2 : isJsWs (normChar c)
      · rw [collapseWs_cons_ws _ _ hn2, collapseWs_cons_ws _ _ hn2,
          collapseWs_dropWhile, collapseWs_dropWhile, hIH]
      · have hn2f : isJsWs (normChar c) = false := by simpa using hn2
        rw [collapseWs_cons_not _ _ hn2f, collapseWs_cons_not _ _ hn2f, hIH]

/-- C5: `normalizeText` is idempotent; strings that differ only by letter
casing, only by surrounding punctuation, or only by the width of their
whitespace runs all share one normalised form. -/
theorem normalizeText_spec :
    (∀ s : String, normalizeText (normalizeText s) = normalizeText s)
    ∧ (∀ s t : String, s.data.map jsLower = t.data.map jsLower →
        normalizeText s = normalizeText t)
    ∧ (∀ p s q : String, (∀ c, c ∈ p.data ++ q.data → isLowerAlnum (jsLower c) = false) →
        normalizeText (p ++ s ++ q) = normalizeText s)
    ∧ (∀ s t : String, collapseWs s.data = collapseWs t.data →
        normalizeText s = normalizeText t) := by
  refine ⟨?_, ?_, ?_, ?_⟩
  · intro s
    unfold normalizeText
    set z := jsTrimList (collapseWs (s.data.map normChar)) with hz
    have hzchars : ∀ c ∈ z, c = ' ' ∨ isLowerAlnum c = true := by
      intro c hc
      have hmem := mem_jsTrimList _ c hc
      rcases mem_collapseWs _ c hmem with h | ⟨hm, hwf⟩
      · left; exact h
      · right
        obtain ⟨x, _, hx⟩ := List.mem_map.mp hm
        rcases normChar_classes x with h | h
        · rw [← hx]; exact h
        · rw [← hx] at hwf; rw [h] at hwf; cases hwf
    have hmap : z.map normChar = z := by
      conv_rhs => rw [← List.map_id z]
      refine List.map_congr_left ?_
      intro c hc
      rcases hzchars c hc with h | h
      · rw [h]; exact normChar_space
      · exact normChar_alnum_fix c h
    have hcol : collapseWs z = z := by
      apply collapseWs_fix
      · exact chain_jsTrimList _ (chain_collapseWs _)
      · intro c hc hw
        rcases hzchars c hc with h | h
        · exact h
        · exfalso
          rcases ws_cases c hw with h2 | h2 | h2 | h2 | h2 | h2 | h2 | h2 | h2 | h2 <;>
            subst h2 <;> simp [isLowerAlnum] at h
    rw [hmap, hcol]
    have hfix : jsTrimList z = z := by
      rw [hz]
      exact jsTrimList_idem _
    rw [hfix]
  · intro s t h
    unfold normalizeText
    have hs : s.data.map normChar = (s.data.map jsLower).map normChar := by
      rw [List.map_map]
      exact (List.map_congr_left (fun c _ => (normChar_via_lower c).symm))
    have ht : t.data.map normChar = (t.data.map jsLower).map normChar := by
      rw [List.map_map]
      exact (List.map_congr_left (fun c _ => (normChar_via_lower c).symm))
    rw [hs, ht, h]
  · intro p s q h
    unfold normalizeText
    have hdata : (p ++ s ++ q).data = p.data ++ s.data ++ q.data := rfl
    rw [hdata]
    simp only [List.map_append]
    have hpws : ∀ c ∈ p.data.map normChar, isJsWs c = true := by
      intro c hc
      obtain ⟨x, hx, hcx⟩ := List.mem_map.mp hc
      have hna : isLowerAlnum (jsLower x) = false := h x (by simp [hx])
      rcases normChar_classes x with h2 | h2
      · exfalso
        simp only [normChar] at h2
        by_cases hb : isLowerAlnum (jsLower x) || isJsWs (jsLower x)
        · simp only [hb, if_true] at h2
          rw [h2] at hna
          cases hna
        · simp only [hb, if_false] at h2
          simp [isLowerAlnum] at h2
      · rw [← hcx]; exact h2
    have hqws : ∀ c ∈ q.data.map normChar, isJsWs c = true := by
      intro c hc
      obtain ⟨x, hx, hcx⟩ := List.mem_map.mp hc
      have hna : isLowerAlnum (jsLower x) = false := h x (by simp [hx])
      rcases normChar_classes x with h2 | h2
      · exfalso
        simp only [normChar] at h2
        by_cases hb : isLowerAlnum (jsLower x) || isJsWs (jsLower x)
        · simp only [hb, if_true] at h2
          rw [h2] at hna
          cases hna
        · simp only [hb, if_false] at h2
          simp [isLowerAlnum] at h2
      · rw [← hcx]; exact h2
    rw [List.append_assoc]
    rw [jsTrimList_collapse_ws_append _ _ hpws, jsTrimList_collapse_append_ws _ _ hqws]
  · intro s t h
    unfold normalizeText
    rw [← collapse_map_norm s.data, ← collapse_map_norm t.data, h]

/-- Concrete instances discharging every hypothesis of `normalizeText_spec`. -/
theorem normalizeText_spec_witness :
    (normalizeText (normalizeText ("a - B")) = normalizeText ("a - B"))
    ∧ (normalizeText ("Hello There") = normalizeText ("hELLO tHERE"))
    ∧ (normalizeText ("...likes green tea!  ") = normalizeText ("likes green tea"))
    ∧ (normalizeText ("drinks   oat  milk") = normalizeText ("drinks oat milk")) := by
  refine ⟨normalizeText_spec.1 _, normalizeText_spec.2.1 _ _ (by decide), ?_, ?_⟩
  · have := normalizeText_spec.2.2.1 ("...") ("likes green tea") ("!  ") (by decide)
    simpa using this
  · exact normalizeText_spec.2.2.2 _ _ (by decide)

-- -------- C7: connection keys --------

/-- C7: `consume(key)` returns the stored `{userId, sessionId}` exactly when
the key is present and its `expiresAt` (set at issue time to `now + TTL`) is
still in the future; hit, expired or absent, the entry is removed, so a
second consume of the same key returns none; other keys are untouched. -/
theorem consumeWsConnectionKey_spec (store : KeyStore) (key : String) (now : Nat) :
    ((consumeWsConnectionKey store key now).2 key = none)
    ∧ (∀ k, k ≠ key → (consumeWsConnectionKey store key now).2 k = store k)
    ∧ (∀ v, (consumeWsConnectionKey store key now).1 = some v ↔
        ∃ e, store key = some e ∧ now < e.expiresAt ∧ v = (e.userId, e.sessionId))
    ∧ (∀ now2,
        (consumeWsConnectionKey ((consumeWsConnectionKey store key now).2) key now2).1 = none)
    ∧ (∀ userId sid ttl now2,
        (consumeWsConnectionKey
            ((createWsConnectionKey store key userId sid now ttl).1) key now2).1 =
          if now2 < now + ttl then some (userId, sid) else none) := by
  have hval : consumeWsConnectionKey store key now =
      match store key with
      | none => (none, store)
      | some found =>
        if found.expiresAt ≤ now
        then (none, fun k => if k = key then none else store k)
        else (some (found.userId, found.sessionId), fun k => if k = key then none else store k) :=
    rfl
  refine ⟨?_, ?_, ?_, ?_, ?_⟩
  · rw [hval]
    cases hs : store key with
    | none => simpa using hs
    | some e => by_cases hexp : e.expiresAt ≤ now <;> simp [hexp]
  · intro k hk
    rw [hval]
    cases hs : store key with
    | none => rfl
    | some e => by_cases hexp : e.expiresAt ≤ now <;> simp [hexp, hk]
  · intro v
    rw [hval]
    cases hs : store key with
    | none =>
      constructor
      · intro h; cases h
      · rintro ⟨e, he, -, -⟩
        cases he
    | some e =>
      dsimp only
      by_cases hexp : e.expiresAt ≤ now
      · rw [if_pos hexp]
        constructor
        · intro h; cases h
        · rintro ⟨e2, he2, hlt, -⟩
          cases he2
          omega
      · rw [if_neg hexp]
        constructor
        · intro h
          refine ⟨e, rfl, by omega, ?_⟩
          simpa using h.symm
        · rintro ⟨e2, he2, -, hv⟩
          cases he2
          simp [hv]
  · intro now2
    rw [hval]
    cases hs : store key with
    | none =>
      dsimp only
      simp [consumeWsConnectionKey, hs]
    | some e =>
      have hdel : ∀ now3,
          (consumeWsConnectionKey (fun k => if k = key then none else store k) key now3).1
            = none := by
        intro now3
        simp [consumeWsConnectionKey]
      dsimp only
      by_cases hexp : e.expiresAt ≤ now
      · rw [if_pos hexp]; exact hdel now2
      · rw [if_neg hexp]; exact hdel now2
  · intro userId sid ttl now2
    have hlook : ((createWsConnectionKey store key userId sid now ttl).1) key =
        some ⟨userId, sid, now + ttl⟩ := by
      simp [createWsConnectionKey]
    have hval2 : consumeWsConnectionKey ((createWsConnectionKey store key userId sid now ttl).1)
        key now2 =
        if now + ttl ≤ now2
        then (none, fun k => if k = key
          then none else (createWsConnectionKey store key userId sid now ttl).1 k)
        else (some (userId, sid), fun k => if k = key
          then none else (createWsConnectionKey store key userId sid now ttl).1 k) := by
      unfold consumeWsConnectionKey
      rw [hlook]
    rw [hval2]
    by_cases ht : now + ttl ≤ now2
    · rw [if_pos ht, if_neg (by omega)]
    · rw [if_neg ht, if_pos (by omega)]

/-- A concrete key store instantiating `consumeWsConnectionKey_spec`. -/
def witnessKeyStore : KeyStore :=
  fun k => if k = "k1" then some ⟨"u1", some 7, 50⟩ else none

theorem consumeWsConnectionKey_spec_witness :
    (consumeWsConnectionKey witnessKeyStore "k1" 10).2 "k2" = witnessKeyStore "k2" :=
  (consumeWsConnectionKey_spec witnessKeyStore "k1" 10).2.1 "k2" (by decide)

-- -------- C4: backfillMissingFactAdds --------

theorem decDigitsAux_ne_nil (fuel n : Nat) (h : n < fuel) : decDigitsAux fuel n ≠ [] := by
  cases fuel with
  | zero => omega
  | succ f =>
    by_cases h10 : n < 10 <;> simp [decDigitsAux, h10]

theorem charToNat_digit (k : Nat) (hk : k < 10) : (Char.ofNat (48 + k)).toNat = 48 + k :=
  charOfNatToNat _ (by left; omega)

theorem decDigitsAux_digits (fuel : Nat) :
    ∀ n, n < fuel → ∀ c ∈ decDigitsAux fuel n, 48 ≤ c.toNat ∧ c.toNat ≤ 57 := by
  induction fuel with
  | zero => intro n h; omega
  | succ f ih =>
    intro n _ c hc
    by_cases h10 : n < 10
    · simp only [decDigitsAux, h10, if_true, List.mem_singleton] at hc
      subst hc
      rw [charToNat_digit n h10]
      omega
    · simp only [decDigitsAux, h10, if_false, List.mem_append, List.mem_singleton] at hc
      rcases hc with hc | hc
      · exact ih (n / 10) (by omega) c hc
      · subst hc
        rw [charToNat_digit (n % 10) (by omega)]
        omega

theorem digit_not_ws (c : Char) (h1 : 48 ≤ c.toNat) (h2 : c.toNat ≤ 57) :
    isJsWs c = false := by
  by_contra hw
  rw [Bool.not_eq_false] at hw
  rcases ws_cases c hw with h | h | h | h | h | h | h | h | h | h <;> subst h <;>
    first
      | exact absurd h1 (by decide)
      | exact absurd h2 (by decide)

theorem digit_is_digit (c : Char) (h1 : 48 ≤ c.toNat) (h2 : c.toNat ≤ 57) :
    ('0' ≤ c && c ≤ '9') = true := by
  have l0 : '0' ≤ c := by rw [charLeIffToNat]; simpa using h1
  have l9 : c ≤ '9' := by rw [charLeIffToNat]; simpa using h2
  simp [l0, l9]

theorem decDigitsAux_foldl (fuel : Nat) :
    ∀ n, n < fuel → ∀ a : Nat,
      (decDigitsAux fuel n).foldl (fun acc c => acc * 10 + (c.toNat - 48)) a =
        a * 10 ^ (decDigitsAux fuel n).length + n := by
  induction fuel with
  | zero => intro n h; omega
  | succ f ih =>
    intro n hn a
    by_cases h10 : n < 10
    · simp only [decDigitsAux, h10, if_true, List.foldl_cons, List.foldl_nil,
        List.length_singleton]
      rw [charToNat_digit n h10]
      ring_nf
      omega
    · simp only [decDigitsAux, h10, if_false, List.foldl_append, List.length_append,
        List.foldl_cons, List.foldl_nil, List.length_singleton]
      rw [ih (n / 10) (by omega) a, charToNat_digit (n % 10) (by omega)]
      have hmod : 48 + n % 10 - 48 = n % 10 := by omega
      rw [hmod, pow_succ]
      have := Nat.div_add_mod n 10
      ring_nf
      omega

theorem jsParseInt_decDigits (n : Nat) :
    jsParseInt (String.mk (decDigits n)) = some (n : Int) := by
  have hlt : n < n + 1 := Nat.lt_succ_self n
  have hds := decDigitsAux_digits (n + 1) n hlt
  have hne := decDigitsAux_ne_nil (n + 1) n hlt
  have hfold := decDigitsAux_foldl (n + 1) n hlt 0
  unfold jsParseInt decDigits
  cases hd : decDigitsAux (n + 1) n with
  | nil => exact absurd hd hne
  | cons c rest =>
    rw [hd] at hds hfold
    have hc := hds c (by simp)
    have hcw : isJsWs c = false := digit_not_ws c hc.1 hc.2
    have hcm : ¬(c = '-') := by
      intro h
      subst h
      exact absurd hc.1 (by decide)
    have hcp : ¬(c = '+') := by
      intro h
      subst h
      exact absurd hc.1 (by decide)
    have hdata : (String.mk (c :: rest)).data = c :: rest := rfl
    simp only [hdata, List.dropWhile_cons, hcw, Bool.false_eq_true, if_false]
    have hneq : ¬((c :: rest).head? = some '-' ∨ (c :: rest).head? = some '+') := by
      rintro (h | h)
      · exact hcm (by simpa using h)
      · exact hcp (by simpa using h)
    rw [if_neg hneq]
    have htake : (c :: rest).takeWhile (fun x => '0' ≤ x && x ≤ '9') = c :: rest := by
      rw [List.takeWhile_eq_self_iff]
      intro x hx
      have hb := hds x hx
      exact digit_is_digit x hb.1 hb.2
    rw [htake]
    simp only [List.isEmpty_cons, Bool.false_eq_true, if_false]
    rw [if_neg (show ¬((c :: rest).head? = some '-') from fun h => hcm (by simpa using h))]
    rw [hfold]
    simp

theorem jsParseInt_intToDecString (m : Int) (h : 0 ≤ m) :
    jsParseInt (intToDecString m) = some m := by
  unfold intToDecString
  rw [if_neg (by omega)]
  rw [jsParseInt_decDigits m.toNat]
  congr 1
  omega

theorem foldl_max_ge_seed (xs : List Int) (i : Int) : i ≤ xs.foldl (fun mx x => max mx x) i := by
  induction xs generalizing i with
  | nil => simp
  | cons x t ih =>
    simp only [List.foldl_cons]
    exact le_trans (le_max_left i x) (ih (max i x))

theorem foldl_max_ge_mem (xs : List Int) (i x : Int) (hx : x ∈ xs) :
    x ≤ xs.foldl (fun mx y => max mx y) i := by
  induction xs generalizing i with
  | nil => simp at hx
  | cons y t ih =>
    simp only [List.foldl_cons]
    rcases List.mem_cons.mp hx with h | h
    · subst h
      exact le_trans (le_max_right i x) (foldl_max_ge_seed t (max i x))
    · exact ih (max i y) h

theorem maxNumericId_ge (actions : List MemoryAction) (b : MemoryAction) (hb : b ∈ actions)
    (n : Int) (hn : parseIntDouble b.id = some (JsNum.fin n)) : n ≤ maxNumericId actions := by
  unfold maxNumericId
  apply foldl_max_ge_mem
  refine List.mem_filterMap.mpr ⟨b, hb, ?_⟩
  rw [hn]

theorem maxNumericId_ge_neg_one (actions : List MemoryAction) :
    -1 ≤ maxNumericId actions :=
  foldl_max_ge_seed _ _

theorem autoAddActions_texts (k : Int) (fs : List String) :
    (autoAddActions k fs).map (fun a => a.text) = fs := by
  induction fs generalizing k with
  | nil => rfl
  | cons f t ih => simp [autoAddActions, ih]

theorem autoAddActions_event (k : Int) (fs : List String) (a : MemoryAction)
    (ha : a ∈ autoAddActions k fs) : a.event = "ADD" ∧ a.old_memory = none := by
  induction fs generalizing k with
  | nil => simp [autoAddActions] at ha
  | cons f t ih =>
    simp only [autoAddActions, List.mem_cons] at ha
    rcases ha with ha | ha
    · subst ha
      exact ⟨rfl, rfl⟩
    · exact ih _ ha

-- -------- C4: the binary64 facts behind the id arithmetic --------

set_option maxRecDepth 8192

theorem bitLenAux_spec (fuel : Nat) : ∀ n, 0 < n → n < fuel →
    2 ^ bitLenAux fuel n ≤ n ∧ n < 2 ^ (bitLenAux fuel n + 1) := by
  induction fuel with
  | zero =>
    intro n h1 h2
    omega
  | succ f ih =>
    intro n h1 h2
    by_cases hn2 : n < 2
    · simp only [bitLenAux, hn2, if_true]
      simp
      omega
    · simp only [bitLenAux, hn2, if_false]
      have hd : 0 < n / 2 := by omega
      have hlt : n / 2 < f := by omega
      obtain ⟨ha, hb⟩ := ih (n / 2) hd hlt
      constructor
      · rw [pow_succ]
        have h3 : 2 ^ bitLenAux f (n / 2) * 2 ≤ n / 2 * 2 :=
          Nat.mul_le_mul_right 2 ha
        omega
      · rw [pow_succ]
        omega

theorem floorLog2_spec (n : Nat) (h : 0 < n) :
    2 ^ floorLog2 n ≤ n ∧ n < 2 ^ (floorLog2 n + 1) :=
  bitLenAux_spec (n + 1) n h (Nat.lt_succ_self n)

theorem roundNat53_le (n : Nat) (h : n ≤ 2 ^ 53) : roundNat53 n = n := by
  rcases Nat.lt_or_ge n (2 ^ 53) with hlt | hge
  · unfold roundNat53
    rw [if_pos hlt]
  · have he : n = 2 ^ 53 := le_antisymm h hge
    subst he
    decide

theorem roundD_small (v : Int) (h : v.natAbs ≤ 2 ^ 53) : roundD v = v := by
  unfold roundD
  by_cases hv : v < 0
  · rw [if_pos hv, roundNat53_le _ h]
    omega
  · rw [if_neg hv, roundNat53_le _ h]
    omega

theorem roundNat53_big (n : Nat) (h : 2 ^ 53 ≤ n) : 2 ^ 53 ≤ roundNat53 n := by
  rcases eq_or_lt_of_le h with he | hlt
  · rw [← he, roundNat53_le _ (le_refl _)]
  · unfold roundNat53
    rw [if_neg (by omega)]
    obtain ⟨hlow, hhigh⟩ := floorLog2_spec n (by omega)
    have hlog : 53 ≤ floorLog2 n := by
      by_contra hcon
      have h2 : floorLog2 n + 1 ≤ 53 := by omega
      have h3 : (2 : Nat) ^ (floorLog2 n + 1) ≤ 2 ^ 53 :=
        Nat.pow_le_pow_right (by norm_num) h2
      omega
    have he1 : 1 ≤ floorLog2 n - 52 := by omega
    have hq : 2 ^ 52 ≤ n / 2 ^ (floorLog2 n - 52) := by
      have hdiv : 2 ^ floorLog2 n / 2 ^ (floorLog2 n - 52) ≤
          n / 2 ^ (floorLog2 n - 52) :=
        Nat.div_le_div_right hlow
      rwa [Nat.pow_div (by omega) (by norm_num),
        show floorLog2 n - (floorLog2 n - 52) = 52 by omega] at hdiv
    have hp : 2 ≤ 2 ^ (floorLog2 n - 52) := by
      calc (2 : Nat) = 2 ^ 1 := by norm_num
        _ ≤ 2 ^ (floorLog2 n - 52) := Nat.pow_le_pow_right (by norm_num) he1
    have hbase : 2 ^ 53 ≤ n / 2 ^ (floorLog2 n - 52) * 2 ^ (floorLog2 n - 52) := by
      calc (2 : Nat) ^ 53 = 2 ^ 52 * 2 := by norm_num
        _ ≤ n / 2 ^ (floorLog2 n - 52) * 2 ^ (floorLog2 n - 52) :=
          Nat.mul_le_mul hq hp
    dsimp only
    split
    · exact hbase
    · split
      · calc (2 : Nat) ^ 53 ≤ n / 2 ^ (floorLog2 n - 52) * 2 ^ (floorLog2 n - 52) := hbase
          _ ≤ (n / 2 ^ (floorLog2 n - 52) + 1) * 2 ^ (floorLog2 n - 52) := by
            apply Nat.mul_le_mul_right
            omega
      · split
        · exact hbase
        · calc (2 : Nat) ^ 53 ≤ n / 2 ^ (floorLog2 n - 52) * 2 ^ (floorLog2 n - 52) := hbase
            _ ≤ (n / 2 ^ (floorLog2 n - 52) + 1) * 2 ^ (floorLog2 n - 52) := by
              apply Nat.mul_le_mul_right
              omega

theorem roundNat53_fix_small (c v : Nat) (hv : v < 2 ^ 53) (h : roundNat53 c = v) :
    c = v := by
  rcases Nat.lt_or_ge c (2 ^ 53) with hc | hc
  · rwa [roundNat53_le c (by omega)] at h
  · have := roundNat53_big c hc
    omega

theorem rtCand_sound (v j c : Nat) (h : rtCand v j = some c) : roundNat53 c = v := by
  unfold rtCand at h
  dsimp only at h
  split at h
  · rename_i hcond
    simp only [Bool.and_eq_true, decide_eq_true_eq] at hcond
    injection h with h2
    subst h2
    split
    · exact hcond.1
    · exact hcond.2
  · split at h
    · rename_i hcond
      simp only [decide_eq_true_eq] at hcond
      injection h with h2
      subst h2
      exact hcond
    · split at h
      · rename_i hcond
        simp only [decide_eq_true_eq] at hcond
        injection h with h2
        subst h2
        exact hcond
      · cases h

theorem shortestDec_small (v : Nat) (hv : v < 2 ^ 53) : shortestDec v = v := by
  unfold shortestDec
  by_cases h0 : v = 0
  · rw [if_pos h0, h0]
  · rw [if_neg h0]
    suffices h : ∀ fuel k, shortestDecGo v k fuel = v from h _ _
    intro fuel
    induction fuel with
    | zero => intro _; rfl
    | succ f ih =>
      intro k
      unfold shortestDecGo
      cases hc : rtCand v ((decDigits v).length - k) with
      | none => exact ih (k + 1)
      | some c => exact roundNat53_fix_small c v hv (rtCand_sound _ _ _ hc)

theorem decDigitsAux_length_le (fuel : Nat) :
    ∀ n k, n < fuel → n < 10 ^ k → 0 < k → (decDigitsAux fuel n).length ≤ k := by
  induction fuel with
  | zero =>
    intro n k h
    omega
  | succ f ih =>
    intro n k hn hk hkpos
    by_cases h10 : n < 10
    · simp only [decDigitsAux, h10, if_true, List.length_singleton]
      omega
    · simp only [decDigitsAux, h10, if_false, List.length_append, List.length_singleton]
      have hk2 : 2 ≤ k := by
        by_contra hcon
        have hk1 : k = 1 := by omega
        subst hk1
        simp only [pow_one] at hk
        omega
      have hdiv : n / 10 < 10 ^ (k - 1) := by
        rw [Nat.div_lt_iff_lt_mul (by norm_num)]
        calc n < 10 ^ k := hk
          _ = 10 ^ (k - 1) * 10 := by
            rw [← pow_succ]
            congr 1
            omega
      have := ih (n / 10) (k - 1) (by omega) hdiv (by omega)
      omega

theorem decDigits_length_le (n k : Nat) (h : n < 10 ^ k) (hk : 0 < k) :
    (decDigits n).length ≤ k :=
  decDigitsAux_length_le (n + 1) n k (Nat.lt_succ_self n) h hk

theorem jsNatToString_small (v : Nat) (hv : v < 2 ^ 53) :
    jsNatToString v = String.mk (decDigits v) := by
  unfold jsNatToString
  by_cases h0 : v = 0
  · subst h0
    decide
  · rw [if_neg h0]
    dsimp only
    rw [shortestDec_small v hv]
    have hlen : (decDigits v).length ≤ 21 := by
      apply decDigits_length_le v 21 ?_ (by norm_num)
      calc v < 2 ^ 53 := hv
        _ < 10 ^ 21 := by norm_num
    rw [if_pos hlen]

theorem jsNumberToString_small (v : Int) (h0 : 0 ≤ v) (hv : v < 2 ^ 53) :
    jsNumberToString v = intToDecString v := by
  unfold jsNumberToString intToDecString
  rw [if_neg (by omega), if_neg (by omega)]
  rw [jsNatToString_small v.toNat ?_]
  have h53 : (2 : Int) ^ 53 = 9007199254740992 := by norm_num
  have h53n : (2 : Nat) ^ 53 = 9007199254740992 := by norm_num
  rw [h53] at hv
  omega

theorem parseIntDouble_small (s : String) (v : Int) (h : jsParseInt s = some v)
    (hv : v.natAbs ≤ 2 ^ 53) : parseIntDouble s = some (JsNum.fin v) := by
  have hov : (2 : Nat) ^ 53 < dblOverflow := by
    unfold dblOverflow
    have l1 : (2 : Nat) ^ 53 < 2 ^ 970 := Nat.pow_lt_pow_right (by norm_num) (by norm_num)
    have l2 : (2 : Nat) ^ 970 + 2 ^ 970 ≤ 2 ^ 1024 := by
      rw [← two_mul, ← pow_succ']
      exact Nat.pow_le_pow_right (by norm_num) (by norm_num)
    omega
  unfold parseIntDouble
  rw [h]
  dsimp only [Option.map]
  rw [if_neg (by omega), roundD_small v hv]

theorem autoAddActions_mem_safe (fs : List String) : ∀ (k : Int) (a : MemoryAction),
    0 ≤ k → k + (fs.length : Int) ≤ 2 ^ 53 → a ∈ autoAddActions k fs →
    ∃ m : Int, k ≤ m ∧ m < k + fs.length ∧ a.id = intToDecString m := by
  have h53 : (2 : Int) ^ 53 = 9007199254740992 := by norm_num
  induction fs with
  | nil =>
    intro k a _ _ ha
    simp [autoAddActions] at ha
  | cons f t ih =>
    intro k a hk hbound ha
    rw [List.length_cons] at hbound
    push_cast at hbound
    simp only [autoAddActions, List.mem_cons] at ha
    rcases ha with ha | ha
    · subst ha
      refine ⟨k, le_refl k, ?_, ?_⟩
      · rw [List.length_cons]
        push_cast
        omega
      · show jsNumberToString k = intToDecString k
        apply jsNumberToString_small k hk
        rw [h53]
        omega
    · have hnext : roundD (k + 1) = k + 1 := by
        apply roundD_small
        have h53n : (2 : Nat) ^ 53 = 9007199254740992 := by norm_num
        rw [h53n]
        omega
      rw [hnext] at ha
      obtain ⟨m, hm1, hm2, hm3⟩ := ih (k + 1) a (by omega) (by rw [h53]; omega) ha
      refine ⟨m, by omega, ?_, hm3⟩
      rw [List.length_cons]
      push_cast
      omega

/-- C4 (corrected): within the binary64-exact id range — every numeric id
among the input actions has magnitude at most `2 ^ 53`, and the maximal one
leaves room for the new ids below `2 ^ 53` — `backfillMissingFactAdds`
appends exactly one `ADD` action per unmatched fact, in order, with fresh
decimal ids strictly above the largest numeric id among the input actions;
matched facts add nothing and the input actions are preserved in order.
Outside that range the double arithmetic saturates and the generated id can
collide with an input id (see `backfillMissingFactAdds_saturates`). -/
theorem backfillMissingFactAdds_spec (actions : List MemoryAction)
    (existing : List (String × String)) (facts : List String)
    (hids : ∀ a ∈ actions, ∀ v : Int, jsParseInt a.id = some v → v.natAbs ≤ 2 ^ 53)
    (hroom : maxNumericId actions + (facts.length : Int) < 2 ^ 53) :
    ∃ suffix,
      backfillMissingFactAdds actions existing facts = actions ++ suffix
      ∧ suffix.map (fun a => a.text) =
          facts.filter (fun f => !(hasTextMatch f (simulatedFinalTexts actions existing)))
      ∧ (∀ a ∈ suffix, a.event = "ADD" ∧ a.old_memory = none)
      ∧ (∀ a ∈ suffix, ∃ m : Int, 0 ≤ m ∧ a.id = intToDecString m ∧
          jsParseInt a.id = some m ∧
          ∀ b ∈ actions, ∀ n : Int, jsParseInt b.id = some n → n < m)
      ∧ (∀ a ∈ suffix, ∀ b ∈ actions, a.id ≠ b.id) := by
  have h53 : (2 : Int) ^ 53 = 9007199254740992 := by norm_num
  have hmax := maxNumericId_ge_neg_one actions
  have hgeb : ∀ b ∈ actions, ∀ n : Int, jsParseInt b.id = some n →
      n ≤ maxNumericId actions := by
    intro b hb n hn
    exact maxNumericId_ge actions b hb n (parseIntDouble_small b.id n hn (hids b hb n hn))
  unfold backfillMissingFactAdds
  by_cases hmiss :
      (facts.filter (fun fact =>
        !(hasTextMatch fact (simulatedFinalTexts actions existing)))).isEmpty
  · refine ⟨[], by simp [hmiss], ?_, by simp, by simp, by simp⟩
    rw [List.isEmpty_iff] at hmiss
    simp [hmiss]
  · set missing := facts.filter (fun fact =>
      !(hasTextMatch fact (simulatedFinalTexts actions existing))) with hmissing
    have hmlen : (missing.length : Int) ≤ (facts.length : Int) := by
      have := List.length_filter_le (fun fact =>
        !(hasTextMatch fact (simulatedFinalTexts actions existing))) facts
      rw [hmissing]
      exact_mod_cast this
    have hnext : roundD (maxNumericId actions + 1) = maxNumericId actions + 1 := by
      apply roundD_small
      rw [h53] at hroom
      omega
    refine ⟨autoAddActions (roundD (maxNumericId actions + 1)) missing,
      by simp [hmiss], ?_, ?_, ?_, ?_⟩
    · exact autoAddActions_texts _ _
    · intro a ha
      exact autoAddActions_event _ _ a ha
    · intro a ha
      rw [hnext] at ha
      obtain ⟨m, hm1, hm2, hid⟩ := autoAddActions_mem_safe missing
        (maxNumericId actions + 1) a (by omega) (by rw [h53] at hroom ⊢; omega) ha
      have h0 : (0 : Int) ≤ m := by omega
      refine ⟨m, h0, hid, ?_, ?_⟩
      · rw [hid]
        exact jsParseInt_intToDecString m h0
      · intro b hb n hn
        have := hgeb b hb n hn
        omega
    · intro a ha b hb heq
      rw [hnext] at ha
      obtain ⟨m, hm1, hm2, hid⟩ := autoAddActions_mem_safe missing
        (maxNumericId actions + 1) a (by omega) (by rw [h53] at hroom ⊢; omega) ha
      have h0 : (0 : Int) ≤ m := by omega
      have hpa : jsParseInt a.id = some m := by
        rw [hid]
        exact jsParseInt_intToDecString m h0
      have hpb : jsParseInt b.id = some m := by
        rw [← heq]
        exact hpa
      have := hgeb b hb m hpb
      omega

/-- Witness for C4: one matched and one unmatched fact against a single
existing memory, with small ids. -/
theorem backfillMissingFactAdds_spec_witness :
    ∃ suffix : List MemoryAction,
      backfillMissingFactAdds
          [⟨"NONE", "0", "likes tea", none⟩]
          [("0", "likes tea")]
          ["Likes tea!", "owns a cat"] =
        [⟨"NONE", "0", "likes tea", none⟩] ++ suffix
      ∧ suffix.map (fun a => a.text) = ["owns a cat"] := by
  obtain ⟨suffix, h1, h2, h3, h4, h5⟩ :=
    backfillMissingFactAdds_spec [⟨"NONE", "0", "likes tea", none⟩] [("0", "likes tea")]
      ["Likes tea!", "owns a cat"]
      (by
        intro a ha v hv
        simp only [List.mem_singleton] at ha
        subst ha
        have hz : jsParseInt (MemoryAction.id ⟨"NONE", "0", "likes tea", none⟩) =
            some 0 := by decide
        rw [hz] at hv
        injection hv with hv2
        subst hv2
        decide)
      (by decide)
  refine ⟨suffix, h1, ?_⟩
  rw [h2]
  decide

/-- C4 counterexample: with an input id of `10 ^ 19` the double increment
`maxId + 1` rounds back to `maxId`, and `String(nextId)` reproduces the
input id — the generated `ADD` id collides with an existing action id, so
it is neither fresh nor strictly greater. -/
theorem backfillMissingFactAdds_saturates :
    backfillMissingFactAdds cexBigActions [] ["zzz"] =
      cexBigActions ++ [⟨"ADD", "10000000000000000000", "zzz", none⟩] ∧
    (∃ a ∈ cexBigActions, a.id = "10000000000000000000") ∧
    roundD (maxNumericId cexBigActions + 1) = maxNumericId cexBigActions := by
  refine ⟨by decide, by decide, by decide⟩

-- -------- C3: repairInvalidActions lemmas --------

theorem initNoneByText_sound (actions : List MemoryAction) (idMap : IdMap) :
    ∀ t pos n, initNoneByText actions idMap t = some (pos, n) →
      actions[pos]? = some n ∧ n.event = "NONE" ∧ hasId idMap n.id = true ∧ n.text = t := by
  have haux : ∀ (l : List (Nat × MemoryAction)) (m : String → Option (Nat × MemoryAction)),
      (∀ p ∈ l, actions[p.1]? = some p.2) →
      (∀ t pos n, m t = some (pos, n) →
        actions[pos]? = some n ∧ n.event = "NONE" ∧ hasId idMap n.id = true ∧ n.text = t) →
      ∀ t pos n,
        (l.foldl (fun m p => if p.2.event == "NONE" && hasId idMap p.2.id
            then fun u => if u = p.2.text then some p else m u
            else m) m) t = some (pos, n) →
        actions[pos]? = some n ∧ n.event = "NONE" ∧ hasId idMap n.id = true ∧ n.text = t := by
    intro l
    induction l with
    | nil => intro m _ hm; exact hm
    | cons p rest ih =>
      intro m hl hm
      simp only [List.foldl_cons]
      apply ih
      · intro q hq
        exact hl q (by simp [hq])
      · by_cases hcond : (p.2.event == "NONE" && hasId idMap p.2.id) = true
        · rw [if_pos hcond]
          intro t pos n ht
          have ht2 : (if t = p.2.text then some p else m t) = some (pos, n) := ht
          by_cases hteq : t = p.2.text
          · rw [if_pos hteq] at ht2
            cases ht2
            have hget := hl _ (List.mem_cons_self _ _)
            simp only [Bool.and_eq_true, beq_iff_eq] at hcond
            exact ⟨hget, hcond.1, hcond.2, hteq.symm⟩
          · rw [if_neg hteq] at ht2
            exact hm t pos n ht2
        · rw [if_neg hcond]
          exact hm
  intro t pos n h
  refine haux actions.enum (fun _ => none) ?_ ?_ t pos n h
  · rintro ⟨i, b⟩ hp
    exact List.mk_mem_enum_iff_getElem?.mp hp
  · intro t pos n ht
    cases ht

theorem initNoneByText_exists (actions : List MemoryAction) (idMap : IdMap)
    (nn : MemoryAction) (hmem : nn ∈ actions) (hev : nn.event = "NONE")
    (hid : hasId idMap nn.id = true) :
    (initNoneByText actions idMap nn.text).isSome = true := by
  have hmono : ∀ (l : List (Nat × MemoryAction)) (m : String → Option (Nat × MemoryAction))
      (t : String), (m t).isSome = true →
      ((l.foldl (fun m p => if p.2.event == "NONE" && hasId idMap p.2.id
          then fun u => if u = p.2.text then some p else m u
          else m) m) t).isSome = true := by
    intro l
    induction l with
    | nil => intro m t h; exact h
    | cons p rest ih =>
      intro m t h
      simp only [List.foldl_cons]
      apply ih
      by_cases hcond : (p.2.event == "NONE" && hasId idMap p.2.id) = true
      · rw [if_pos hcond]
        by_cases hteq : t = p.2.text
        · simp [hteq]
        · simp only [if_neg hteq]
          exact h
      · rw [if_neg hcond]
        exact h
  have haux : ∀ (l : List (Nat × MemoryAction)) (m : String → Option (Nat × MemoryAction)),
      (∃ p ∈ l, (p.2.event == "NONE" && hasId idMap p.2.id) = true ∧ p.2.text = nn.text) →
      ((l.foldl (fun m p => if p.2.event == "NONE" && hasId idMap p.2.id
          then fun u => if u = p.2.text then some p else m u
          else m) m) nn.text).isSome = true := by
    intro l
    induction l with
    | nil => rintro m ⟨p, hp, -⟩; simp at hp
    | cons p rest ih =>
      rintro m ⟨q, hq, hcond, htext⟩
      simp only [List.foldl_cons]
      rcases List.mem_cons.mp hq with h | h
      · subst h
        apply hmono
        rw [if_pos hcond]
        simp [htext.symm]
      · exact ih _ ⟨q, h, hcond, htext⟩
  obtain ⟨i, hi⟩ := List.getElem?_of_mem hmem
  refine haux actions.enum (fun _ => none) ⟨(i, nn), ?_, ?_, rfl⟩
  · exact List.mk_mem_enum_iff_getElem?.mpr hi
  · simp [hev, hid]

/-- Invariant carried by the repair loop. -/
def RepairInv (actions : List MemoryAction) (idMap : IdMap) (s : RepairState) : Prop :=
  (∀ t, s.noneByText t = initNoneByText actions idMap t ∨ s.noneByText t = none)
  ∧ (∀ t pos n, s.noneByText t = some (pos, n) → s.transplants pos = none)
  ∧ (∀ i v, s.transplants i = some v →
      ∃ b n, b ∈ actions ∧ isInvalidUD idMap b = true ∧ actions[i]? = some n ∧
        n.event = "NONE" ∧ hasId idMap n.id = true ∧ b.old_memory = some n.text ∧
        n.text ≠ "" ∧ v = transplantOf b n)
  ∧ (∀ id2 ∈ s.droppedIds, ∃ b ∈ actions, isInvalidUD idMap b = true ∧ b.id = id2)

theorem repairInv_init (actions : List MemoryAction) (idMap : IdMap) :
    RepairInv actions idMap ⟨initNoneByText actions idMap, fun _ => none, []⟩ := by
  refine ⟨fun t => Or.inl rfl, fun t pos n h => rfl, ?_, ?_⟩
  · intro i v h
    exact Option.noConfusion h
  · intro id2 h
    exact absurd h (List.not_mem_nil id2)

theorem repairStep_skip_none (s : RepairState) (a : MemoryAction)
    (h : a.old_memory = none) : repairStep s a = s := by
  unfold repairStep
  rw [h]

theorem repairStep_skip_empty (s : RepairState) (a : MemoryAction)
    (h : a.old_memory = some "") : repairStep s a = s := by
  unfold repairStep
  rw [h]
  dsimp only
  rw [if_pos rfl]

theorem repairStep_skip_nomatch (s : RepairState) (a : MemoryAction) (t : String)
    (h : a.old_memory = some t) (ht : ¬(t = "")) (hnb : s.noneByText t = none) :
    repairStep s a = s := by
  unfold repairStep
  rw [h]
  dsimp only
  rw [if_neg ht, hnb]

theorem repairStep_hit (s : RepairState) (a : MemoryAction) (t : String) (pos : Nat)
    (n : MemoryAction) (h : a.old_memory = some t) (ht : ¬(t = ""))
    (hnb : s.noneByText t = some (pos, n)) :
    repairStep s a =
      ⟨fun u => if u = t then none else s.noneByText u,
        fun i => if i = pos then some (transplantOf a n) else s.transplants i,
        a.id :: s.droppedIds⟩ := by
  unfold repairStep
  rw [h]
  dsimp only
  rw [if_neg ht, hnb]

theorem repairStep_inv (actions : List MemoryAction) (idMap : IdMap) (s : RepairState)
    (hs : RepairInv actions idMap s) (a : MemoryAction) (ha : a ∈ actions)
    (hinv : isInvalidUD idMap a = true) :
    RepairInv actions idMap (repairStep s a) := by
  obtain ⟨h1, h2, h3, h4⟩ := hs
  cases hom : a.old_memory with
  | none => rw [repairStep_skip_none s a hom]; exact ⟨h1, h2, h3, h4⟩
  | some t =>
    by_cases ht : t = ""
    · subst ht
      rw [repairStep_skip_empty s a hom]
      exact ⟨h1, h2, h3, h4⟩
    · cases hnb : s.noneByText t with
      | none =>
        rw [repairStep_skip_nomatch s a t hom ht hnb]
        exact ⟨h1, h2, h3, h4⟩
      | some q =>
        obtain ⟨pos, n⟩ := q
        rw [repairStep_hit s a t pos n hom ht hnb]
        have hinit : initNoneByText actions idMap t = some (pos, n) := by
          rcases h1 t with h | h
          · rw [← h]; exact hnb
          · rw [h] at hnb; cases hnb
        obtain ⟨hget, hev, hid, htext⟩ := initNoneByText_sound actions idMap t pos n hinit
        refine ⟨?_, ?_, ?_, ?_⟩
        · intro u
          by_cases hu : u = t
          · simp [hu]
          · simp only [if_neg hu]
            exact h1 u
        · intro u pos2 n2 hu
          have hu2 : (if u = t then none else s.noneByText u) = some (pos2, n2) := hu
          by_cases hut : u = t
          · rw [if_pos hut] at hu2; cases hu2
          · rw [if_neg hut] at hu2
            have hold := h2 u pos2 n2 hu2
            have hpos2 : pos2 ≠ pos := by
              intro he
              subst he
              have hinit2 : initNoneByText actions idMap u = some (pos2, n2) := by
                rcases h1 u with h | h
                · rw [← h]; exact hu2
                · rw [h] at hu2; cases hu2
              obtain ⟨hget2, _, _, htext2⟩ := initNoneByText_sound actions idMap u pos2 n2 hinit2
              rw [hget] at hget2
              cases hget2
              exact hut (by rw [← htext2, htext])
            show (if pos2 = pos then some (transplantOf a n) else s.transplants pos2) = none
            rw [if_neg hpos2]
            exact hold
        · intro i v hv
          have hv2 : (if i = pos then some (transplantOf a n) else s.transplants i) = some v := hv
          by_cases hip : i = pos
          · subst hip
            rw [if_pos rfl] at hv2
            cases hv2
            exact ⟨a, n, ha, hinv, hget, hev, hid, by rw [hom, htext],
              by rw [htext]; exact ht, rfl⟩
          · rw [if_neg hip] at hv2
            exact h3 i v hv2
        · intro id2 hid2
          have hid3 : id2 ∈ a.id :: s.droppedIds := hid2
          rcases List.mem_cons.mp hid3 with h | h
          · exact ⟨a, ha, hinv, h.symm⟩
          · exact h4 id2 h

theorem foldl_repair_inv (actions : List MemoryAction) (idMap : IdMap) :
    ∀ (l : List MemoryAction) (s : RepairState),
      (∀ b ∈ l, b ∈ actions ∧ isInvalidUD idMap b = true) →
      RepairInv actions idMap s → RepairInv actions idMap (l.foldl repairStep s) := by
  intro l
  induction l with
  | nil => intro s _ hs; exact hs
  | cons x rest ih =>
    intro s hl hs
    simp only [List.foldl_cons]
    have hx := hl x (by simp)
    exact ih _ (fun b hb => hl b (by simp [hb])) (repairStep_inv actions idMap s hs x hx.1 hx.2)

theorem repairStep_transplants_stable (actions : List MemoryAction) (idMap : IdMap)
    (s : RepairState) (hs : RepairInv actions idMap s) (a : MemoryAction) (i : Nat)
    (v : MemoryAction) (h : s.transplants i = some v) :
    (repairStep s a).transplants i = some v := by
  cases hom : a.old_memory with
  | none => rw [repairStep_skip_none s a hom]; exact h
  | some t =>
    by_cases ht : t = ""
    · subst ht
      rw [repairStep_skip_empty s a hom]
      exact h
    · cases hnb : s.noneByText t with
      | none => rw [repairStep_skip_nomatch s a t hom ht hnb]; exact h
      | some q =>
        obtain ⟨pos, n⟩ := q
        rw [repairStep_hit s a t pos n hom ht hnb]
        have hnone := hs.2.1 t pos n hnb
        have hip : i ≠ pos := by
          intro he
          rw [he, hnone] at h
          cases h
        show (if i = pos then some (transplantOf a n) else s.transplants i) = some v
        rw [if_neg hip]
        exact h

theorem foldl_transplants_stable (actions : List MemoryAction) (idMap : IdMap) :
    ∀ (l : List MemoryAction) (s : RepairState),
      (∀ b ∈ l, b ∈ actions ∧ isInvalidUD idMap b = true) →
      RepairInv actions idMap s →
      ∀ i v, s.transplants i = some v → (l.foldl repairStep s).transplants i = some v := by
  intro l
  induction l with
  | nil => intro s _ _ i v h; exact h
  | cons x rest ih =>
    intro s hl hs i v h
    simp only [List.foldl_cons]
    have hx := hl x (by simp)
    exact ih _ (fun b hb => hl b (by simp [hb]))
      (repairStep_inv actions idMap s hs x hx.1 hx.2) i v
      (repairStep_transplants_stable actions idMap s hs x i v h)

theorem foldl_dropped_mono :
    ∀ (l : List MemoryAction) (s : RepairState) (id2 : String),
      id2 ∈ s.droppedIds → id2 ∈ (l.foldl repairStep s).droppedIds := by
  intro l
  induction l with
  | nil => intro s id2 h; exact h
  | cons x rest ih =>
    intro s id2 h
    simp only [List.foldl_cons]
    apply ih
    cases hom : x.old_memory with
    | none => rw [repairStep_skip_none s x hom]; exact h
    | some t =>
      by_cases ht : t = ""
      · subst ht
        rw [repairStep_skip_empty s x hom]
        exact h
      · cases hnb : s.noneByText t with
        | none => rw [repairStep_skip_nomatch s x t hom ht hnb]; exact h
        | some q =>
          obtain ⟨pos, n⟩ := q
          rw [repairStep_hit s x t pos n hom ht hnb]
          show id2 ∈ x.id :: s.droppedIds
          simp [h]

theorem foldl_repair_unique (actions : List MemoryAction) (idMap : IdMap) (a : MemoryAction)
    (t : String) (hne : ¬(t = "")) (hom : a.old_memory = some t) :
    ∀ (l : List MemoryAction) (s : RepairState), RepairInv actions idMap s →
      (∀ b ∈ l, b ∈ actions ∧ isInvalidUD idMap b = true) →
      a ∈ l → (∀ b ∈ l, b.old_memory = some t → b = a) →
      ∀ pos n, s.noneByText t = some (pos, n) →
      a.id ∈ (l.foldl repairStep s).droppedIds ∧
      (l.foldl repairStep s).transplants pos = some (transplantOf a n) := by
  intro l
  induction l with
  | nil => intro s _ _ hmem; simp at hmem
  | cons x rest ih =>
    intro s hsInv hl hmem huniq pos n hnb
    simp only [List.foldl_cons]
    have hx := hl x (by simp)
    have hstepInv := repairStep_inv actions idMap s hsInv x hx.1 hx.2
    by_cases hxa : x = a
    · subst hxa
      have hstepEq := repairStep_hit s x t pos n hom hne hnb
      constructor
      · apply foldl_dropped_mono
        rw [hstepEq]
        show x.id ∈ x.id :: s.droppedIds
        simp
      · refine foldl_transplants_stable actions idMap rest (repairStep s x)
          (fun b hb => hl b (by simp [hb])) hstepInv pos (transplantOf x n) ?_
        rw [hstepEq]
        show (if pos = pos then some (transplantOf x n) else s.transplants pos) =
          some (transplantOf x n)
        rw [if_pos rfl]
    · have hxnott : x.old_memory ≠ some t := fun hxo => hxa (huniq x (by simp) hxo)
      have hnb2 : (repairStep s x).noneByText t = some (pos, n) := by
        cases hxo : x.old_memory with
        | none => rw [repairStep_skip_none s x hxo]; exact hnb
        | some u =>
          by_cases hu : u = ""
          · subst hu
            rw [repairStep_skip_empty s x hxo]
            exact hnb
          · cases hsn : s.noneByText u with
            | none => rw [repairStep_skip_nomatch s x u hxo hu hsn]; exact hnb
            | some q =>
              obtain ⟨pos2, n2⟩ := q
              rw [repairStep_hit s x u pos2 n2 hxo hu hsn]
              have hut : ¬(t = u) := by
                intro he
                exact hxnott (by rw [hxo, he])
              show (if t = u then none else s.noneByText t) = some (pos, n)
              rw [if_neg hut]
              exact hnb
      have hmem2 : a ∈ rest := by
        rcases List.mem_cons.mp hmem with h | h
        · exact absurd h.symm hxa
        · exact h
      exact ih (repairStep s x) hstepInv (fun b hb => hl b (by simp [hb])) hmem2
        (fun b hb hbo => huniq b (by simp [hb]) hbo) pos n hnb2

-- -------- C2 helpers: the JSON branch --------

theorem string_data_append (s t : String) : (s ++ t).data = s.data ++ t.data := rfl

theorem string_mk_data (s : String) : String.mk s.data = s := rfl

theorem castAction_actionJson (a : MemoryAction) : castAction (actionJson a) = some a := by
  cases a with
  | mk e i t o => cases o <;> rfl

theorem parseMemoryActions_jsonItems (raw : String) (items : List Json)
    (h : jsonParse (extractJson raw) = some (Json.obj [("memory", Json.arr items)])) :
    parseMemoryActions raw = items.filterMap castAction := by
  unfold parseMemoryActions parseActionsFromJson
  rw [h]
  rfl

theorem parseMemoryActions_jsonDoc (raw : String) (l : List MemoryAction)
    (h : jsonParse (extractJson raw) = some (memoryDoc l)) :
    parseMemoryActions raw = l := by
  rw [parseMemoryActions_jsonItems raw (l.map actionJson) h]
  rw [List.filterMap_map]
  clear h
  induction l with
  | nil => rfl
  | cons a rest ih =>
    rw [List.filterMap_cons]
    have ha : (castAction ∘ actionJson) a = some a := castAction_actionJson a
    rw [ha, ih]

theorem parseMemoryActions_fallback (raw : String) (h : parseActionsFromJson raw = none) :
    parseMemoryActions raw = (normalizeLines raw).filterMap parsePipeLine := by
  unfold parseMemoryActions
  rw [h]

theorem parsePipeLine_filter (row : String) (e i t : String) (rest : List String)
    (hsplit : (jsSplitChar '|' row).map jsTrim = e :: i :: t :: rest)
    (hbad : ¬(jsUpperStr e = "ADD" ∨ jsUpperStr e = "UPDATE" ∨ jsUpperStr e = "DELETE" ∨
      jsUpperStr e = "NONE") ∨ i = "") :
    parsePipeLine row = none := by
  unfold parsePipeLine
  rw [hsplit]
  dsimp only
  by_cases hval : jsUpperStr e = "ADD" ∨ jsUpperStr e = "UPDATE" ∨ jsUpperStr e = "DELETE" ∨
      jsUpperStr e = "NONE"
  · rw [if_neg (not_not_intro hval)]
    rcases hbad with hb | hb
    · exact absurd hval hb
    · rw [if_pos hb]
  · rw [if_pos hval]

-- -------- C2 helpers: split / trim / head-char machinery --------

theorem splitOnChar_ne_nil (sep : Char) (l : List Char) : splitOnChar sep l ≠ [] := by
  cases l with
  | nil => simp [splitOnChar]
  | cons c rest =>
    unfold splitOnChar
    cases h : splitOnChar sep rest with
    | nil => simp
    | cons seg segs => by_cases hc : c = sep <;> simp [hc]

theorem splitOnChar_no_sep (sep : Char) (l : List Char) (h : sep ∉ l) :
    splitOnChar sep l = [l] := by
  induction l with
  | nil => rfl
  | cons c rest ih =>
    unfold splitOnChar
    rw [ih (fun hm => h (by simp [hm]))]
    have hc : ¬(c = sep) := fun he => h (by simp [he])
    simp [hc]

theorem splitOnChar_append_sep (sep : Char) (a b : List Char) (ha : sep ∉ a) :
    splitOnChar sep (a ++ sep :: b) = a :: splitOnChar sep b := by
  induction a with
  | nil =>
    simp only [List.nil_append]
    have h2 : splitOnChar sep (sep :: b) =
        match splitOnChar sep b with
        | [] => [[]]
        | seg :: segs => if sep = sep then [] :: seg :: segs else (sep :: seg) :: segs := rfl
    rw [h2]
    cases h : splitOnChar sep b with
    | nil => exact absurd h (splitOnChar_ne_nil sep b)
    | cons seg segs => simp
  | cons c a2 ih =>
    rw [List.cons_append]
    have h2 : splitOnChar sep (c :: (a2 ++ sep :: b)) =
        match splitOnChar sep (a2 ++ sep :: b) with
        | [] => [[]]
        | seg :: segs => if c = sep then [] :: seg :: segs else (c :: seg) :: segs := rfl
    rw [h2, ih (fun hm => ha (by simp [hm]))]
    have hc : ¬(c = sep) := fun he => ha (by simp [he])
    simp [hc]

theorem dropWhile_of_head_fact {p : Char → Bool} (l : List Char)
    (h : ∀ c rest, l = c :: rest → p c = false) : l.dropWhile p = l := by
  cases l with
  | nil => rfl
  | cons c t =>
    rw [List.dropWhile_cons]
    simp [h c t rfl]

theorem trimEnd_of_rev_head (l : List Char)
    (hl : ∀ c rest, l.reverse = c :: rest → isJsWs c = false) : trimEnd l = l := by
  unfold trimEnd
  have h3 : l.reverse.dropWhile (fun c => isJsWs c) = l.reverse :=
    dropWhile_of_head_fact l.reverse hl
  rw [h3, List.reverse_reverse]

theorem jsTrimList_cons_not (c : Char) (l : List Char) (hc : isJsWs c = false) :
    jsTrimList (c :: l) = c :: trimEnd l := by
  unfold jsTrimList
  rw [List.dropWhile_cons]
  simp only [hc, Bool.false_eq_true, if_false]
  exact trimEnd_cons_not c l hc

theorem jsTrimList_eq_self (l : List Char)
    (hh : ∀ c rest, l = c :: rest → isJsWs c = false)
    (hl : ∀ c rest, l.reverse = c :: rest → isJsWs c = false) :
    jsTrimList l = l := by
  unfold jsTrimList
  have h3 : l.dropWhile (fun c => isJsWs c) = l := dropWhile_of_head_fact l hh
  rw [h3]
  exact trimEnd_of_rev_head l hl

theorem dropWhile_length_le (p : Char → Bool) (l : List Char) :
    (l.dropWhile p).length ≤ l.length :=
  (List.dropWhile_sublist p (l := l)).length_le

theorem trimEnd_length_le (l : List Char) : (trimEnd l).length ≤ l.length := by
  unfold trimEnd
  rw [List.length_reverse]
  calc (l.reverse.dropWhile fun c => isJsWs c).length
      ≤ l.reverse.length := dropWhile_length_le _ _
    _ = l.length := List.length_reverse l

theorem jsTrimList_length_le (l : List Char) : (jsTrimList l).length ≤ l.length := by
  unfold jsTrimList
  calc (trimEnd (l.dropWhile fun c => isJsWs c)).length
      ≤ (l.dropWhile fun c => isJsWs c).length := trimEnd_length_le _
    _ ≤ l.length := dropWhile_length_le _ _

theorem trim_stable_head (s : List Char) (c : Char) (rest : List Char)
    (hc : s = c :: rest) (hst : jsTrimList s = s) : isJsWs c = false := by
  have hpre : jsTrimList s <+: (s.dropWhile fun c => isJsWs c) := by
    unfold jsTrimList
    exact trimEnd_isPrefix _
  rw [hst] at hpre
  obtain ⟨t, ht⟩ := hpre
  rw [hc, List.cons_append] at ht
  exact dropWhile_head_not (c :: rest) c (rest ++ t) ht.symm

theorem trim_stable_last (s : List Char) (c : Char) (rest : List Char)
    (hc : s.reverse = c :: rest) (hst : jsTrimList s = s) : isJsWs c = false := by
  have h2 : (jsTrimList s).reverse =
      ((s.dropWhile fun c => isJsWs c).reverse.dropWhile fun c => isJsWs c) := by
    unfold jsTrimList trimEnd
    rw [List.reverse_reverse]
  rw [hst, hc] at h2
  exact dropWhile_head_not _ c rest h2.symm

-- -------- C2/C10 helpers: why the JSON branch fails on pipe text --------

theorem skipJsonWs_cons_not (c : Char) (l : List Char) (h : isJsWs c = false) :
    skipJsonWs (c :: l) = c :: l := by
  unfold skipJsonWs
  rw [List.dropWhile_cons]
  have hc : (c == ' ' || c == '\t' || c == '\n' || c == '\r') = false := by
    unfold isJsWs at h
    cases hsp : (c == ' ') <;> cases hst : (c == '\t') <;>
      cases hsn : (c == '\n') <;> cases hsr : (c == '\r') <;> simp_all
  simp [hc]

theorem parseJsonValue_badHead (fuel : Nat) (cs : List Char) (c : Char) (rest : List Char)
    (hskip : skipJsonWs cs = c :: rest)
    (hn : c ≠ 'n') (ht : c ≠ 't') (hf : c ≠ 'f') (hq : c ≠ '"') (hb : c ≠ '[')
    (hl : c ≠ lbraceChar) (hm : c ≠ '-') (hd : ¬('0' ≤ c ∧ c ≤ '9')) :
    parseJsonValue fuel cs = none := by
  cases fuel with
  | zero => rfl
  | succ f =>
    rw [parseJsonValue]
    rw [hskip]
    split
    · rename_i heq
      injection heq with h1 _
      exact absurd h1 hn
    · rename_i heq
      injection heq with h1 _
      exact absurd h1 ht
    · rename_i heq
      injection heq with h1 _
      exact absurd h1 hf
    · rename_i heq
      injection heq with h1 _
      exact absurd h1 hq
    · rename_i heq
      injection heq with h1 _
      exact absurd h1 hb
    · rename_i heq2
      injection heq2 with h1 h2
      subst h1
      rw [if_neg hl, if_neg (by
        intro hcon
        rcases hcon with hcon | hcon
        · exact hm hcon
        · exact hd hcon)]
    · rename_i heq2
      exact absurd heq2 (by simp)

theorem findFence_none (cs : List Char) (h : backquoteChar ∉ cs) :
    findFence cs = none := by
  induction cs with
  | nil => rfl
  | cons c rest ih =>
    unfold findFence
    have hc : ¬(c = backquoteChar ∧ rest.head? = some backquoteChar ∧
        rest.tail.head? = some backquoteChar) := by
      intro hcon
      exact h (by simp [hcon.1])
    rw [if_neg hc]
    exact ih (fun hm => h (by simp [hm]))

theorem bracesSlice_none (cs : List Char)
    (h : ∀ c ∈ cs, ¬(c = '[' ∨ c = lbraceChar)) : bracesSlice cs = none := by
  unfold bracesSlice
  have hidx : cs.findIdx? (fun c => decide (c = '[' ∨ c = lbraceChar)) = none := by
    rw [List.findIdx?_eq_none_iff]
    intro x hx
    simpa using h x hx
  dsimp only
  rw [hidx]

theorem extractJson_of_plain (raw : String)
    (hbq : backquoteChar ∉ raw.data)
    (hbr : ∀ c ∈ raw.data, ¬(c = '[' ∨ c = lbraceChar)) :
    extractJson raw = jsTrim raw := by
  unfold extractJson
  rw [findFence_none raw.data hbq, bracesSlice_none raw.data hbr]

theorem jsonParse_badHead (s : String) (c : Char) (tail : List Char)
    (hdata : s.data = c :: tail)
    (hn : c ≠ 'n') (ht : c ≠ 't') (hf : c ≠ 'f') (hq : c ≠ '"') (hb : c ≠ '[')
    (hl : c ≠ lbraceChar) (hm : c ≠ '-') (hd : ¬('0' ≤ c ∧ c ≤ '9'))
    (hw : isJsWs c = false) :
    jsonParse s = none := by
  unfold jsonParse
  rw [hdata]
  rw [parseJsonValue_badHead (s.length * 8 + 32) (c :: tail) c tail
    (skipJsonWs_cons_not c tail hw) hn ht hf hq hb hl hm hd]

theorem jsonParse_trim_badHead (raw : String) (c : Char) (tail : List Char)
    (hdata : raw.data = c :: tail)
    (hn : c ≠ 'n') (ht : c ≠ 't') (hf : c ≠ 'f') (hq : c ≠ '"') (hb : c ≠ '[')
    (hl : c ≠ lbraceChar) (hm : c ≠ '-') (hd : ¬('0' ≤ c ∧ c ≤ '9'))
    (hw : isJsWs c = false) :
    jsonParse (jsTrim raw) = none := by
  apply jsonParse_badHead (jsTrim raw) c (trimEnd tail)
  · show (jsTrim raw).data = c :: trimEnd tail
    unfold jsTrim
    rw [hdata, jsTrimList_cons_not c tail hw]
  all_goals assumption

-- -------- C2 helpers: the pipe encoding --------

theorem encodePipeLine_data (a : MemoryAction) :
    (encodePipeLine a).data =
      a.event.data ++ '|' :: (a.id.data ++ '|' :: (a.text.data ++ '|' ::
        (a.old_memory.getD "").data)) := by
  unfold encodePipeLine
  simp [string_data_append]

theorem event_chars (e : String)
    (he : e = "ADD" ∨ e = "UPDATE" ∨ e = "DELETE" ∨ e = "NONE") :
    ∀ c ∈ e.data, isJsWs c = false ∧ c ≠ '\n' ∧ c ≠ '|' ∧ c ≠ backquoteChar ∧
      c ≠ '[' ∧ c ≠ lbraceChar := by
  rcases he with h | h | h | h <;> subst h <;> decide

theorem event_head (e : String)
    (he : e = "ADD" ∨ e = "UPDATE" ∨ e = "DELETE" ∨ e = "NONE") :
    ∃ c rest, e.data = c :: rest ∧ isJsWs c = false ∧ c ≠ 'n' ∧ c ≠ 't' ∧ c ≠ 'f' ∧
      c ≠ '"' ∧ c ≠ '[' ∧ c ≠ lbraceChar ∧ c ≠ '-' ∧ ¬('0' ≤ c ∧ c ≤ '9') ∧
      c ≠ backquoteChar := by
  rcases he with h | h | h | h <;> subst h
  · exact ⟨'A', ['D', 'D'], rfl, by decide⟩
  · exact ⟨'U', ['P', 'D', 'A', 'T', 'E'], rfl, by decide⟩
  · exact ⟨'D', ['E', 'L', 'E', 'T', 'E'], rfl, by decide⟩
  · exact ⟨'N', ['O', 'N', 'E'], rfl, by decide⟩

theorem jsUpperStr_event (e : String)
    (he : e = "ADD" ∨ e = "UPDATE" ∨ e = "DELETE" ∨ e = "NONE") :
    jsUpperStr e = e := by
  rcases he with h | h | h | h <;> subst h <;> decide

theorem jsTrim_event (e : String)
    (he : e = "ADD" ∨ e = "UPDATE" ∨ e = "DELETE" ∨ e = "NONE") :
    jsTrim e = e := by
  rcases he with h | h | h | h <;> subst h <;> decide

theorem oldField_chars (a : MemoryAction) (ha : actionPipeHygienic a) :
    ∀ c ∈ (a.old_memory.getD "").data, ¬(c = '\n') ∧ ¬(c = '|') ∧
      ¬(c = backquoteChar) ∧ ¬(c = '[') ∧ ¬(c = lbraceChar) := by
  cases hom : a.old_memory with
  | none => intro c hc; exact absurd hc (by simp)
  | some om =>
    intro c hc
    exact (ha.2.2.2.2.2.2 om hom).2.1 c (by simpa using hc)

theorem encodePipeLine_chars (a : MemoryAction) (ha : actionPipeHygienic a) :
    ∀ c ∈ (encodePipeLine a).data,
      c ≠ '\n' ∧ c ≠ backquoteChar ∧ c ≠ '[' ∧ c ≠ lbraceChar := by
  intro c hc
  rw [encodePipeLine_data] at hc
  simp only [List.mem_append, List.mem_cons] at hc
  rcases hc with hc | hc | hc | hc | hc | hc | hc
  · have := event_chars a.event ha.1 c hc
    exact ⟨this.2.1, this.2.2.2.1, this.2.2.2.2.1, this.2.2.2.2.2⟩
  · subst hc; decide
  · have := ha.2.1 c hc
    exact ⟨this.1, this.2.2.1, this.2.2.2.1, this.2.2.2.2⟩
  · subst hc; decide
  · have := ha.2.2.1 c hc
    exact ⟨this.1, this.2.2.1, this.2.2.2.1, this.2.2.2.2⟩
  · subst hc; decide
  · have := oldField_chars a ha c hc
    exact ⟨this.1, this.2.2.1, this.2.2.2.1, this.2.2.2.2⟩

theorem encodePipeLine_noPipeIn (a : MemoryAction) (ha : actionPipeHygienic a) :
    splitOnChar '|' (encodePipeLine a).data =
      [a.event.data, a.id.data, a.text.data, (a.old_memory.getD "").data] := by
  rw [encodePipeLine_data]
  rw [splitOnChar_append_sep '|' _ _
    (fun hm => ((event_chars a.event ha.1 '|' hm).2.2.1) rfl)]
  rw [splitOnChar_append_sep '|' _ _
    (fun hm => ((ha.2.1 '|' hm).2.1) rfl)]
  rw [splitOnChar_append_sep '|' _ _
    (fun hm => ((ha.2.2.1 '|' hm).2.1) rfl)]
  rw [splitOnChar_no_sep '|' _
    (fun hm => ((oldField_chars a ha '|' hm).2.1) rfl)]

theorem jsTrim_hyg_field (s : String) (hst : jsTrim s = s)
    (c : Char) (rest : List Char) (h : s.data = c :: rest ∨ s.data.reverse = c :: rest) :
    isJsWs c = false := by
  have hst2 : jsTrimList s.data = s.data := by
    have := congrArg String.data hst
    simpa [jsTrim] using this
  rcases h with h | h
  · exact trim_stable_head s.data c rest h hst2
  · exact trim_stable_last s.data c rest h hst2

theorem parsePipeLine_encode (a : MemoryAction) (ha : actionPipeHygienic a) :
    parsePipeLine (encodePipeLine a) = some a := by
  have hsplit : jsSplitChar '|' (encodePipeLine a) =
      [a.event, a.id, a.text, a.old_memory.getD ""] := by
    unfold jsSplitChar
    rw [encodePipeLine_noPipeIn a ha]
    simp [string_mk_data]
  have htrimE : jsTrim a.event = a.event := jsTrim_event a.event ha.1
  have htrimO : jsTrim (a.old_memory.getD "") = a.old_memory.getD "" := by
    cases hom : a.old_memory with
    | none => decide
    | some om => exact (ha.2.2.2.2.2.2 om hom).2.2
  unfold parsePipeLine
  rw [hsplit]
  simp only [List.map_cons, List.map_nil, htrimE, ha.2.2.2.2.1, ha.2.2.2.2.2.1, htrimO]
  rw [jsUpperStr_event a.event ha.1]
  rw [if_neg (not_not_intro ha.1), if_neg ha.2.2.2.1]
  cases hom : a.old_memory with
  | none =>
    simp only [hom, Option.getD_none, List.headD_cons, if_pos rfl]
    cases a with
    | mk e i t o =>
      simp only at hom
      subst hom
      rfl
  | some om =>
    have hom_ne : om ≠ "" := (ha.2.2.2.2.2.2 om hom).1
    simp only [hom, Option.getD_some, List.headD_cons, if_neg hom_ne]
    cases a with
    | mk e i t o =>
      simp only at hom
      subst hom
      rfl

-- -------- C2 helpers: lines of the pipe encoding --------

theorem mem_joinNl (xs : List String) (c : Char) (h : c ∈ (joinNl xs).data) :
    c = '\n' ∨ ∃ x ∈ xs, c ∈ x.data := by
  induction xs with
  | nil => exact absurd h (by simp [joinNl])
  | cons x rest ih =>
    cases rest with
    | nil =>
      right
      exact ⟨x, by simp, by simpa [joinNl] using h⟩
    | cons y rr =>
      have hdec : (joinNl (x :: y :: rr)).data =
          x.data ++ '\n' :: (joinNl (y :: rr)).data := by
        show (x ++ "\n" ++ joinNl (y :: rr)).data = _
        simp [string_data_append]
      rw [hdec] at h
      simp only [List.mem_append, List.mem_cons] at h
      rcases h with h | h | h
      · exact Or.inr ⟨x, by simp, h⟩
      · exact Or.inl h
      · rcases ih h with h2 | ⟨z, hz, hcz⟩
        · exact Or.inl h2
        · exact Or.inr ⟨z, by simp [hz], hcz⟩

theorem splitNl_joinNl (xs : List String) (hne : xs ≠ [])
    (h : ∀ x ∈ xs, '\n' ∉ x.data) :
    splitOnChar '\n' (joinNl xs).data = xs.map String.data := by
  induction xs with
  | nil => exact absurd rfl hne
  | cons x rest ih =>
    cases rest with
    | nil =>
      show splitOnChar '\n' x.data = [x.data]
      exact splitOnChar_no_sep '\n' x.data (h x (by simp))
    | cons y rr =>
      have hdec : (joinNl (x :: y :: rr)).data =
          x.data ++ '\n' :: (joinNl (y :: rr)).data := by
        show (x ++ "\n" ++ joinNl (y :: rr)).data = _
        simp [string_data_append]
      rw [hdec, splitOnChar_append_sep '\n' _ _ (h x (by simp))]
      rw [ih (by simp) (fun z hz => h z (by simp [List.mem_cons] at hz ⊢; tauto))]
      rfl

theorem string_ne_empty_of_data (s : String) (c : Char) (rest : List Char)
    (h : s.data = c :: rest) : s ≠ "" := by
  intro h0
  rw [h0] at h
  exact absurd h (by simp)

theorem jsTrim_encodePipeLine (a : MemoryAction) (ha : actionPipeHygienic a) :
    jsTrim (encodePipeLine a) = encodePipeLine a := by
  obtain ⟨c, erest, hE, hcw, _, _, _, _, _, _, _, _, _⟩ := event_head a.event ha.1
  have hhead : ∀ c0 rest0, (encodePipeLine a).data = c0 :: rest0 → isJsWs c0 = false := by
    intro c0 rest0 h0
    rw [encodePipeLine_data, hE, List.cons_append] at h0
    injection h0 with h1 _
    rw [← h1]
    exact hcw
  have hlast : ∀ c0 rest0, (encodePipeLine a).data.reverse = c0 :: rest0 →
      isJsWs c0 = false := by
    cases hom : a.old_memory with
    | none =>
      have hdata : (encodePipeLine a).data =
          (a.event.data ++ '|' :: (a.id.data ++ '|' :: a.text.data)) ++ ['|'] := by
        rw [encodePipeLine_data]
        simp [hom, List.append_assoc]
      intro c0 rest0 h0
      rw [hdata, List.reverse_append] at h0
      injection h0 with h1 _
      rw [← h1]
      decide
    | some om =>
      have hne : om ≠ "" := (ha.2.2.2.2.2.2 om hom).1
      have hst : jsTrim om = om := (ha.2.2.2.2.2.2 om hom).2.2
      have homd : om.data ≠ [] := by
        intro h0
        apply hne
        cases om with
        | mk d =>
          simp only at h0
          subst h0
          rfl
      have hdata : (encodePipeLine a).data =
          (a.event.data ++ '|' :: (a.id.data ++ '|' :: (a.text.data ++ ['|']))) ++
            om.data := by
        rw [encodePipeLine_data]
        simp [hom, List.append_assoc]
      cases hrev : om.data.reverse with
      | nil => exact absurd (by simpa using hrev) homd
      | cons cl restl =>
        have hclw : isJsWs cl = false := by
          apply trim_stable_last om.data cl restl hrev
          have := congrArg String.data hst
          simpa [jsTrim] using this
        intro c0 rest0 h0
        rw [hdata, List.reverse_append, hrev, List.cons_append] at h0
        injection h0 with h1 _
        rw [← h1]
        exact hclw
  show String.mk (jsTrimList (encodePipeLine a).data) = encodePipeLine a
  rw [jsTrimList_eq_self _ hhead hlast]

theorem encodePipeLine_head (a : MemoryAction) (ha : actionPipeHygienic a) :
    ∃ c rest, (encodePipeLine a).data = c :: rest ∧ isJsWs c = false ∧ c ≠ 'n' ∧
      c ≠ 't' ∧ c ≠ 'f' ∧ c ≠ '"' ∧ c ≠ '[' ∧ c ≠ lbraceChar ∧ c ≠ '-' ∧
      ¬('0' ≤ c ∧ c ≤ '9') ∧ c ≠ backquoteChar := by
  obtain ⟨c, erest, hE, hrest⟩ := event_head a.event ha.1
  refine ⟨c, erest ++ '|' :: (a.id.data ++ '|' :: (a.text.data ++ '|' ::
    (a.old_memory.getD "").data)), ?_, hrest⟩
  rw [encodePipeLine_data, hE, List.cons_append]

theorem encodePipeLine_not_fence (a : MemoryAction) (ha : actionPipeHygienic a) :
    encodePipeLine a ≠ tripleBacktick ∧
      tripleBacktick.data.isPrefixOf (encodePipeLine a).data = false := by
  obtain ⟨c, rest, hdata, _, _, _, _, _, _, _, _, _, hcbq⟩ := encodePipeLine_head a ha
  have hbeq : (backquoteChar == c) = false := by
    simp only [beq_eq_false_iff_ne]
    exact fun h0 => hcbq h0.symm
  constructor
  · intro h0
    have := congrArg String.data h0
    rw [hdata] at this
    have h3 : tripleBacktick.data =
        backquoteChar :: [backquoteChar, backquoteChar] := rfl
    rw [h3] at this
    injection this with h1 _
    exact hcbq h1
  · have h3 : tripleBacktick.data = backquoteChar :: [backquoteChar, backquoteChar] := rfl
    rw [h3, hdata]
    simp [List.isPrefixOf, hbeq]

theorem normalizeLines_encodePipe (l : List MemoryAction) (hne : l ≠ [])
    (hl : ∀ a ∈ l, actionPipeHygienic a) :
    normalizeLines (encodePipe l) = l.map encodePipeLine := by
  have hsplit : jsSplitChar '\n' (encodePipe l) = l.map encodePipeLine := by
    unfold jsSplitChar
    show (splitOnChar '\n' (joinNl (l.map encodePipeLine)).data).map String.mk = _
    rw [splitNl_joinNl (l.map encodePipeLine) (by simpa using hne)
      (by
        intro x hx hmem
        simp only [List.mem_map] at hx
        obtain ⟨b, hb, hxb⟩ := hx
        subst hxb
        exact (encodePipeLine_chars b (hl b hb) '\n' hmem).1 rfl)]
    rw [List.map_map]
    exact List.map_congr_left (fun x _ => rfl) |>.trans (List.map_id _)
  unfold normalizeLines
  rw [hsplit]
  have hmapTrim : (l.map encodePipeLine).map jsTrim = l.map encodePipeLine := by
    rw [List.map_map]
    apply List.map_congr_left
    intro b hb
    exact jsTrim_encodePipeLine b (hl b hb)
  rw [hmapTrim]
  have hmem : ∀ x ∈ l.map encodePipeLine, ∃ b ∈ l, x = encodePipeLine b := by
    intro x hx
    simp only [List.mem_map] at hx
    obtain ⟨b, hb, hxb⟩ := hx
    exact ⟨b, hb, hxb.symm⟩
  have hf1 : (l.map encodePipeLine).filter (fun line => line ≠ "") =
      l.map encodePipeLine := by
    apply List.filter_eq_self.mpr
    intro x hx
    obtain ⟨b, hb, hxb⟩ := hmem x hx
    subst hxb
    obtain ⟨c, rest, hdata, _⟩ := encodePipeLine_head b (hl b hb)
    simp [string_ne_empty_of_data _ c rest hdata]
  rw [hf1]
  have hf2 : (l.map encodePipeLine).filter (fun line => line ≠ tripleBacktick) =
      l.map encodePipeLine := by
    apply List.filter_eq_self.mpr
    intro x hx
    obtain ⟨b, hb, hxb⟩ := hmem x hx
    subst hxb
    simp [(encodePipeLine_not_fence b (hl b hb)).1]
  rw [hf2]
  apply List.filter_eq_self.mpr
  intro x hx
  obtain ⟨b, hb, hxb⟩ := hmem x hx
  subst hxb
  simp [(encodePipeLine_not_fence b (hl b hb)).2]

theorem filterMap_parsePipe_encode (l : List MemoryAction)
    (hl : ∀ a ∈ l, actionPipeHygienic a) :
    (l.map encodePipeLine).filterMap parsePipeLine = l := by
  induction l with
  | nil => rfl
  | cons a rest ih =>
    rw [List.map_cons, List.filterMap_cons,
      parsePipeLine_encode a (hl a (by simp))]
    rw [ih (fun b hb => hl b (by simp [hb]))]

theorem encodePipe_cons_data (a : MemoryAction) (rest : List MemoryAction) :
    ∃ tail, (encodePipe (a :: rest)).data = (encodePipeLine a).data ++ tail := by
  cases rest with
  | nil => exact ⟨[], by simp [encodePipe, joinNl]⟩
  | cons y rr =>
    refine ⟨'\n' :: (joinNl ((y :: rr).map encodePipeLine)).data, ?_⟩
    show (encodePipeLine a ++ "\n" ++ joinNl ((y :: rr).map encodePipeLine)).data = _
    simp [string_data_append]

theorem parseMemoryActions_pipe (l : List MemoryAction)
    (hl : ∀ a ∈ l, actionPipeHygienic a) :
    parseMemoryActions (encodePipe l) = l := by
  cases l with
  | nil => rfl
  | cons a rest =>
    have haHyg := hl a (by simp)
    have hchars : ∀ c ∈ (encodePipe (a :: rest)).data,
        c ≠ backquoteChar ∧ c ≠ '[' ∧ c ≠ lbraceChar := by
      intro c hc
      rcases mem_joinNl ((a :: rest).map encodePipeLine) c hc with h | ⟨x, hx, hcx⟩
      · subst h
        refine ⟨by decide, by decide, by decide⟩
      · simp only [List.mem_map] at hx
        obtain ⟨b, hb, hxb⟩ := hx
        subst hxb
        have := encodePipeLine_chars b (hl b hb) c hcx
        exact ⟨this.2.1, this.2.2.1, this.2.2.2⟩
    have hext : extractJson (encodePipe (a :: rest)) = jsTrim (encodePipe (a :: rest)) := by
      apply extractJson_of_plain
      · intro hm
        exact (hchars backquoteChar hm).1 rfl
      · intro c hc hcon
        rcases hcon with h | h
        · exact (hchars c hc).2.1 h
        · exact (hchars c hc).2.2 h
    obtain ⟨c, erest, hE, hcw, hcn, hct, hcf, hcq, hcb, hcl, hcm, hcd, _⟩ :=
      encodePipeLine_head a haHyg
    obtain ⟨tail, htail⟩ := encodePipe_cons_data a rest
    have hdata : (encodePipe (a :: rest)).data = c :: (erest ++ tail) := by
      rw [htail, hE, List.cons_append]
    have hjson : jsonParse (extractJson (encodePipe (a :: rest))) = none := by
      rw [hext]
      exact jsonParse_trim_badHead _ c (erest ++ tail) hdata hcn hct hcf hcq hcb hcl
        hcm hcd hcw
    have hpf : parseActionsFromJson (encodePipe (a :: rest)) = none := by
      unfold parseActionsFromJson
      rw [hjson]
    rw [parseMemoryActions_fallback _ hpf]
    rw [normalizeLines_encodePipe (a :: rest) (by simp) hl]
    exact filterMap_parsePipe_encode (a :: rest) hl

-- -------- C2 / C10 claim theorems --------

theorem parsePipeLine_sound (row : String) (a : MemoryAction)
    (h : parsePipeLine row = some a) :
    (a.event = "ADD" ∨ a.event = "UPDATE" ∨ a.event = "DELETE" ∨ a.event = "NONE") ∧
      a.id ≠ "" := by
  unfold parsePipeLine at h
  cases hp : (jsSplitChar '|' row).map jsTrim with
  | nil =>
    rw [hp] at h
    simp at h
  | cons e tl =>
    rw [hp] at h
    cases tl with
    | nil => simp at h
    | cons i tl2 =>
      cases tl2 with
      | nil => simp at h
      | cons t rest =>
        dsimp only at h
        by_cases hv : jsUpperStr e = "ADD" ∨ jsUpperStr e = "UPDATE" ∨
            jsUpperStr e = "DELETE" ∨ jsUpperStr e = "NONE"
        · rw [if_neg (not_not_intro hv)] at h
          by_cases hi : i = ""
          · rw [if_pos hi] at h
            simp at h
          · rw [if_neg hi] at h
            injection h with h2
            subst h2
            exact ⟨hv, hi⟩
        · rw [if_pos hv] at h
          simp at h

theorem rt_hyg : ∀ a ∈ rtList, actionPipeHygienic a := by
  intro a ha
  simp only [rtList, List.mem_singleton] at ha
  subst ha
  unfold actionPipeHygienic pipeSafe
  refine ⟨by decide, by decide, by decide, by decide, by decide, by decide, ?_⟩
  intro om hom
  exact absurd hom (by simp)

/-- C2 (corrected): the parser round-trip holds under both encodings — when
the extracted region of `raw` JSON-parses to the canonical document
`\x7bmemory: [...]\x7d` of the action list `l`, `parseMemoryActions` returns
exactly `l`, and for a list of pipe-hygienic actions, parsing the
pipe-delimited encoding also returns exactly the list. The filtering half of
the claim holds only for the pipe form: every action the pipe parser emits has
an event in ADD/UPDATE/DELETE/NONE and a non-empty id, while the JSON branch
is an unchecked cast that filters nothing (see
`parseMemoryActions_json_unfiltered`). -/
theorem parseMemoryActions_roundTrip (l : List MemoryAction) (raw : String)
    (hjson : jsonParse (extractJson raw) = some (memoryDoc l))
    (hhyg : ∀ a ∈ l, actionPipeHygienic a) :
    parseMemoryActions raw = l ∧
    parseMemoryActions (encodePipe l) = l ∧
    (∀ row b, parsePipeLine row = some b →
      (b.event = "ADD" ∨ b.event = "UPDATE" ∨ b.event = "DELETE" ∨
        b.event = "NONE") ∧ b.id ≠ "") :=
  ⟨parseMemoryActions_jsonDoc raw l hjson, parseMemoryActions_pipe l hhyg,
    fun row b hb => parsePipeLine_sound row b hb⟩

/-- Witness for C2: the round-trip theorem evaluated at the singleton ADD
action and its JSON document. -/
theorem parseMemoryActions_roundTrip_witness :
    parseMemoryActions rtRaw = rtList ∧
      parseMemoryActions (encodePipe rtList) = rtList :=
  ⟨(parseMemoryActions_roundTrip rtList rtRaw (by rfl) rt_hyg).1,
    (parseMemoryActions_roundTrip rtList rtRaw (by rfl) rt_hyg).2.1⟩

/-- C2 counterexample: in the JSON form, an entry whose event token is
`BOGUS` (outside ADD/UPDATE/DELETE/NONE) and whose id is the empty string is
NOT filtered out — `parseMemoryActions` returns it unchanged, because
`parseActionsFromJson` is an unvalidated TypeScript cast. -/
theorem parseMemoryActions_json_unfiltered :
    parseMemoryActions cexJsonRaw = [⟨"BOGUS", "", "x", none⟩] ∧
    ¬("BOGUS" = "ADD" ∨ "BOGUS" = "UPDATE" ∨ "BOGUS" = "DELETE" ∨
      "BOGUS" = "NONE") ∧
    (([⟨"BOGUS", "", "x", none⟩] : List MemoryAction) ≠ []) :=
  ⟨by rfl, by decide, by decide⟩

/-- C10: the two LLM-output parsers are total — the model of `JSON.parse`
returns `none` in place of the thrown `SyntaxError`, and whenever the JSON
branch fails on the extracted region, both parsers fall back to the
line-based form and return a (possibly empty) list; every action the
fallback returns carries a known event tag and a non-empty id. -/
theorem parseTotality_spec (raw : String)
    (hfail : jsonParse (extractJson raw) = none) :
    parseFactList raw = parseFactLines raw ∧
    parseMemoryActions raw = (normalizeLines raw).filterMap parsePipeLine ∧
    (∀ b ∈ parseMemoryActions raw,
      (b.event = "ADD" ∨ b.event = "UPDATE" ∨ b.event = "DELETE" ∨
        b.event = "NONE") ∧ b.id ≠ "") := by
  have hpa : parseActionsFromJson raw = none := by
    unfold parseActionsFromJson
    rw [hfail]
  have hpf : parseFactsFromJson raw = none := by
    unfold parseFactsFromJson
    rw [hfail]
  refine ⟨?_, parseMemoryActions_fallback raw hpa, ?_⟩
  · unfold parseFactList
    rw [hpf]
  · intro b hb
    rw [parseMemoryActions_fallback raw hpa, List.mem_filterMap] at hb
    obtain ⟨row, _, hrow⟩ := hb
    exact parsePipeLine_sound row b hrow

/-- Witness for C10: the totality theorem evaluated on garbage output. -/
theorem parseTotality_spec_witness :
    parseFactList c10Raw = parseFactLines c10Raw ∧
      parseMemoryActions c10Raw = (normalizeLines c10Raw).filterMap parsePipeLine :=
  ⟨(parseTotality_spec c10Raw (by rfl)).1, (parseTotality_spec c10Raw (by rfl)).2.1⟩

-- -------- C3 helpers: retry loop and final assembly --------

theorem strContains_iff (l : List String) (x : String) : l.contains x = true ↔ x ∈ l := by
  show l.elem x = true ↔ x ∈ l
  exact List.elem_iff

theorem invalidAfter_backfill (idMap : IdMap) (actions : List MemoryAction)
    (existing : List (String × String)) (facts : List String) :
    invalidAfter idMap (backfillMissingFactAdds actions existing facts) =
      invalidAfter idMap actions := by
  unfold backfillMissingFactAdds
  dsimp only
  split
  · rfl
  · unfold invalidAfter
    rw [List.filter_append]
    have hnil : (autoAddActions (roundD (maxNumericId actions + 1))
        (facts.filter (fun fact => !(hasTextMatch fact (simulatedFinalTexts actions
          existing))))).filter
        (fun a => !(a.event == "ADD") && !(a.event == "NONE") && !(hasId idMap a.id)) = [] := by
      rw [List.filter_eq_nil_iff]
      intro b hb
      have hadd := (autoAddActions_event _ _ b hb).1
      simp [hadd]
    rw [hnil, List.append_nil]

theorem generateActionsGo_bound (oracle : Nat → String) (idMap : IdMap) :
    ∀ (fuel calls : Nat) (actions res : List MemoryAction) (calls2 : Nat),
      generateActionsGo oracle idMap fuel calls actions = Except.ok (res, calls2) →
      calls ≤ calls2 ∧ calls2 ≤ calls + fuel ∧
        (calls2 < calls + fuel → invalidAfter idMap res = []) := by
  intro fuel
  induction fuel with
  | zero =>
    intro calls actions res calls2 h
    simp only [generateActionsGo, Except.ok.injEq, Prod.mk.injEq] at h
    obtain ⟨h1, h2⟩ := h
    subst h1
    subst h2
    exact ⟨le_refl _, by omega, fun hlt => absurd hlt (by omega)⟩
  | succ f ih =>
    intro calls actions res calls2 h
    rw [generateActionsGo] at h
    split at h
    · rename_i hemp
      simp only [Except.ok.injEq, Prod.mk.injEq] at h
      obtain ⟨h1, h2⟩ := h
      subst h1
      subst h2
      refine ⟨le_refl _, by omega, fun _ => ?_⟩
      rwa [List.isEmpty_iff] at hemp
    · cases hr : runAttempt oracle (calls + 1) with
      | error e =>
        rw [hr] at h
        cases h
      | ok a2 =>
        rw [hr] at h
        obtain ⟨hb1, hb2, hb3⟩ := ih (calls + 1) (repairInvalidActions a2 idMap) res calls2 h
        exact ⟨by omega, by omega, fun hlt => hb3 (by omega)⟩

theorem generateActions_calls (oracle : Nat → String) (existing : List (String × String))
    (facts : List String) (idMap : IdMap) (res2 : List MemoryAction) (calls : Nat)
    (h : generateActions oracle existing facts idMap = Except.ok (res2, calls)) :
    1 ≤ calls ∧ calls ≤ RETRIES ∧ (calls < RETRIES → invalidAfter idMap res2 = []) := by
  unfold generateActions at h
  cases h1 : runAttempt oracle 1 with
  | error e =>
    rw [h1] at h
    cases h
  | ok a1 =>
    rw [h1] at h
    dsimp only at h
    cases h2 : generateActionsGo oracle idMap (RETRIES - 1) 1 (repairInvalidActions a1 idMap) with
    | error e =>
      rw [h2] at h
      cases h
    | ok p =>
      obtain ⟨acts, calls1⟩ := p
      rw [h2] at h
      simp only [Except.ok.injEq, Prod.mk.injEq] at h
      obtain ⟨hres, hcalls⟩ := h
      obtain ⟨hb1, hb2, hb3⟩ :=
        generateActionsGo_bound oracle idMap (RETRIES - 1) 1 _ acts calls1 h2
      have hR : RETRIES = 3 := rfl
      subst hcalls
      refine ⟨by omega, by rw [hR] at hb2 ⊢; omega, ?_⟩
      intro hlt
      rw [← hres, invalidAfter_backfill]
      apply hb3
      rw [hR] at hlt ⊢
      omega

/-- C3 (corrected): the repair pass of `repairInvalidActions` together with
the retry loop of `generateActions`. When an UPDATE/DELETE action `a`
references a temp id absent from `tempToReal`, its `old_memory` is a
NON-EMPTY string `t` (the source skips a falsy `old_memory`, so the empty
string is never repaired — see `repairInvalidActions_skips_empty_old`), the
`noneActionsByText` map carries an entry `(pos, n)` for `t`, and `a` is the
only invalid action with that `old_memory`: then the repaired list drops
`a` (no result action carries its id) and contains the transplant, whose
event is `a`'s (and whose text is `a`'s for UPDATE); every non-NONE action
with a known id passes through unchanged; every result action is either an
input action or a transplant of an invalid action onto a NONE action with a
known id whose text equals its `old_memory`; and a successful
`generateActions` makes between 1 and `MEMORY_EXTRACTION_RETRIES = 3` LLM
calls, with fewer than 3 only when no invalid UPDATE/DELETE remains. -/
theorem repairInvalidActions_spec (actions : List MemoryAction) (idMap : IdMap)
    (a : MemoryAction) (t : String) (pos : Nat) (n : MemoryAction)
    (ha : a ∈ actions) (hinv : isInvalidUD idMap a = true)
    (hom : a.old_memory = some t) (hne : ¬(t = ""))
    (hmatch : initNoneByText actions idMap t = some (pos, n))
    (huniq : ∀ b ∈ actions, isInvalidUD idMap b = true → b.old_memory = some t → b = a) :
    (∀ r ∈ repairInvalidActions actions idMap, r.id ≠ a.id) ∧
    transplantOf a n ∈ repairInvalidActions actions idMap ∧
    (transplantOf a n).event = a.event ∧
    (a.event = "UPDATE" → (transplantOf a n).text = a.text) ∧
    n.event = "NONE" ∧ hasId idMap n.id = true ∧ n.text = t ∧
    (∀ (i : Nat) (b : MemoryAction), actions[i]? = some b → b.event ≠ "NONE" →
      hasId idMap b.id = true → b ∈ repairInvalidActions actions idMap) ∧
    (∀ r ∈ repairInvalidActions actions idMap,
      r ∈ actions ∨ ∃ b nn, b ∈ actions ∧ isInvalidUD idMap b = true ∧ nn ∈ actions ∧
        nn.event = "NONE" ∧ hasId idMap nn.id = true ∧ b.old_memory = some nn.text ∧
        r = transplantOf b nn) ∧
    (∀ oracle existing facts res2 calls,
      generateActions oracle existing facts idMap = Except.ok (res2, calls) →
      1 ≤ calls ∧ calls ≤ RETRIES ∧ (calls < RETRIES → invalidAfter idMap res2 = [])) := by
  have hfl : ∀ b ∈ actions.filter (fun x => isInvalidUD idMap x),
      b ∈ actions ∧ isInvalidUD idMap b = true := by
    intro b hb
    rw [List.mem_filter] at hb
    exact hb
  have hmemf : a ∈ actions.filter (fun x => isInvalidUD idMap x) :=
    List.mem_filter.mpr ⟨ha, hinv⟩
  have hfne : (actions.filter (fun x => isInvalidUD idMap x)).isEmpty = false := by
    have h0 := List.ne_nil_of_mem hmemf
    cases hc : actions.filter (fun x => isInvalidUD idMap x) with
    | nil => exact absurd hc h0
    | cons x xs => rfl
  have hresEq : repairInvalidActions actions idMap =
      ((actions.enum.map
        (fun p => ((repairFoldState actions idMap).transplants p.1).getD p.2)).filter
        (fun x => !((repairFoldState actions idMap).droppedIds.contains x.id))) := by
    unfold repairInvalidActions
    rw [hfne]
    simp only [Bool.false_eq_true, if_false]
  have hinvFinal : RepairInv actions idMap (repairFoldState actions idMap) := by
    unfold repairFoldState
    exact foldl_repair_inv actions idMap _ _ hfl (repairInv_init actions idMap)
  have huni : a.id ∈ (repairFoldState actions idMap).droppedIds ∧
      (repairFoldState actions idMap).transplants pos = some (transplantOf a n) := by
    unfold repairFoldState
    exact foldl_repair_unique actions idMap a t hne hom _ _
      (repairInv_init actions idMap) hfl hmemf
      (fun b hb hbo => huniq b (hfl b hb).1 (hfl b hb).2 hbo) pos n hmatch
  obtain ⟨hdropped, htrans⟩ := huni
  obtain ⟨hgetpos, hnev, hnid, hntext⟩ := initNoneByText_sound actions idMap t pos n hmatch
  have hnotdropped : ∀ id2 ∈ (repairFoldState actions idMap).droppedIds,
      hasId idMap id2 = false := by
    intro id2 hid2
    obtain ⟨b, hb, hbinv, hbid⟩ := hinvFinal.2.2.2 id2 hid2
    unfold isInvalidUD at hbinv
    simp only [Bool.and_eq_true, Bool.not_eq_true'] at hbinv
    rw [← hbid]
    exact hbinv.2
  have hA1 : ∀ r ∈ repairInvalidActions actions idMap, r.id ≠ a.id := by
    intro r hr
    rw [hresEq, List.mem_filter] at hr
    obtain ⟨_, hkeep⟩ := hr
    simp only [Bool.not_eq_true'] at hkeep
    intro he
    rw [he] at hkeep
    rw [(strContains_iff _ _).mpr hdropped] at hkeep
    cases hkeep
  have hnn_not : ∀ (x : MemoryAction), hasId idMap x.id = true →
      ((repairFoldState actions idMap).droppedIds.contains x.id) = false := by
    intro x hx
    cases hc : (repairFoldState actions idMap).droppedIds.contains x.id with
    | false => rfl
    | true =>
      have hmem2 := (strContains_iff _ _).mp hc
      rw [hnotdropped x.id hmem2] at hx
      cases hx
  have hA2 : transplantOf a n ∈ repairInvalidActions actions idMap := by
    rw [hresEq, List.mem_filter]
    constructor
    · rw [List.mem_map]
      refine ⟨(pos, n), List.mk_mem_enum_iff_getElem?.mpr hgetpos, ?_⟩
      simp [htrans]
    · have hid : (transplantOf a n).id = n.id := rfl
      rw [hid, hnn_not n hnid]
      rfl
  have hB : ∀ (i : Nat) (b : MemoryAction), actions[i]? = some b → b.event ≠ "NONE" →
      hasId idMap b.id = true → b ∈ repairInvalidActions actions idMap := by
    intro i b hib hbev hbid
    have htri : (repairFoldState actions idMap).transplants i = none := by
      cases hti : (repairFoldState actions idMap).transplants i with
      | none => rfl
      | some v =>
        obtain ⟨b2, n2, _, _, hgn, hn2ev, _, _, _, _⟩ := hinvFinal.2.2.1 i v hti
        rw [hib] at hgn
        injection hgn with hgn2
        exact absurd (hgn2 ▸ hn2ev) hbev
    rw [hresEq, List.mem_filter]
    constructor
    · rw [List.mem_map]
      exact ⟨(i, b), List.mk_mem_enum_iff_getElem?.mpr hib, by simp [htri]⟩
    · rw [hnn_not b hbid]
      rfl
  have hC : ∀ r ∈ repairInvalidActions actions idMap,
      r ∈ actions ∨ ∃ b nn, b ∈ actions ∧ isInvalidUD idMap b = true ∧ nn ∈ actions ∧
        nn.event = "NONE" ∧ hasId idMap nn.id = true ∧ b.old_memory = some nn.text ∧
        r = transplantOf b nn := by
    intro r hr
    rw [hresEq, List.mem_filter] at hr
    obtain ⟨hmap, _⟩ := hr
    rw [List.mem_map] at hmap
    obtain ⟨⟨i, b⟩, hienum, hval⟩ := hmap
    have hib : actions[i]? = some b := List.mk_mem_enum_iff_getElem?.mp hienum
    cases hti : (repairFoldState actions idMap).transplants i with
    | none =>
      left
      rw [← hval]
      simp only [hti, Option.getD_none]
      exact List.mem_iff_getElem?.mpr ⟨i, hib⟩
    | some v =>
      right
      obtain ⟨b2, n2, hb2mem, hb2inv, hgn, hn2ev, hn2id, hb2om, _, hveq⟩ :=
        hinvFinal.2.2.1 i v hti
      refine ⟨b2, n2, hb2mem, hb2inv, List.mem_iff_getElem?.mpr ⟨i, hgn⟩, hn2ev, hn2id, hb2om, ?_⟩
      rw [← hval]
      simp only [hti, Option.getD_some]
      exact hveq
  refine ⟨hA1, hA2, rfl, ?_, hnev, hnid, hntext, hB, hC, ?_⟩
  · intro hupd
    unfold transplantOf
    simp [hupd]
  · intro oracle existing facts res2 calls h
    exact generateActions_calls oracle existing facts idMap res2 calls h

/-- Witness for C3: the repair theorem evaluated on a two-action list where
an invalid UPDATE is reattached to the NONE action carrying its
`old_memory` text. -/
theorem repairInvalidActions_spec_witness :
    transplantOf ⟨"UPDATE", "7", "likes cats", some "remembers cats"⟩
        ⟨"NONE", "0", "remembers cats", none⟩ ∈
      repairInvalidActions cwActions cwIdMap ∧
    (transplantOf ⟨"UPDATE", "7", "likes cats", some "remembers cats"⟩
        ⟨"NONE", "0", "remembers cats", none⟩).event = "UPDATE" :=
  ⟨(repairInvalidActions_spec cwActions cwIdMap
      ⟨"UPDATE", "7", "likes cats", some "remembers cats"⟩ "remembers cats" 0
      ⟨"NONE", "0", "remembers cats", none⟩
      (by decide) (by decide) rfl (by decide) (by decide) (by decide)).2.1,
    (repairInvalidActions_spec cwActions cwIdMap
      ⟨"UPDATE", "7", "likes cats", some "remembers cats"⟩ "remembers cats" 0
      ⟨"NONE", "0", "remembers cats", none⟩
      (by decide) (by decide) rfl (by decide) (by decide) (by decide)).2.2.1⟩

/-- C3 counterexample: the source's falsy check `if (!action.old_memory)
continue` also skips an `old_memory` that IS present but equals the empty
string, even when a NONE action with a known id carries exactly that (empty)
text — the claim's premise holds, yet no transplant happens and the invalid
action is not dropped: the list comes back unchanged. -/
theorem repairInvalidActions_skips_empty_old :
    repairInvalidActions cexRepairActions cexRepairIdMap = cexRepairActions ∧
    isInvalidUD cexRepairIdMap ⟨"UPDATE", "9", "newtext", some ""⟩ = true ∧
    (⟨"NONE", "0", "", none⟩ : MemoryAction).event = "NONE" ∧
    hasId cexRepairIdMap (⟨"NONE", "0", "", none⟩ : MemoryAction).id = true ∧
    (⟨"UPDATE", "9", "newtext", some ""⟩ : MemoryAction).old_memory =
      some (⟨"NONE", "0", "", none⟩ : MemoryAction).text ∧
    ⟨"UPDATE", "9", "newtext", some ""⟩ ∈
      repairInvalidActions cexRepairActions cexRepairIdMap :=
  ⟨by decide, by decide, by decide, by decide, by decide, by decide⟩

-- -------- C1 / C9: the chat turn lifecycle --------

theorem respondWithStream_frames_some (d : Option Nat) (s : Nat) (x : Nat)
    (um : Option String) (ds : List String) :
    (respondWithStream d (some s) x um ds).frames =
      Frame.stream_start :: (ds.map Frame.stream_text_delta ++ [Frame.stream_done s]) := rfl

theorem respondWithStream_state_some (d : Option Nat) (s : Nat) (x : Nat)
    (um : Option String) (ds : List String) :
    (respondWithStream d (some s) x um ds).newState = some s := rfl

theorem runTurns_some (d : Option Nat) (fresh : Nat → Nat) (turns : List Turn)
    (s : Nat) : ∀ k, runTurns d fresh turns (some s) k =
      turns.map (fun tn => Frame.stream_start ::
        (tn.deltas.map Frame.stream_text_delta ++ [Frame.stream_done s])) := by
  induction turns with
  | nil => intro _; rfl
  | cons tn rest ih =>
    intro k
    have h0 : runTurns d fresh (tn :: rest) (some s) k =
        (respondWithStream d (some s) (fresh k) tn.userMsg tn.deltas).frames ::
          runTurns d fresh rest
            (respondWithStream d (some s) (fresh k) tn.userMsg tn.deltas).newState
            (k + 1) := rfl
    rw [h0, respondWithStream_frames_some, respondWithStream_state_some, ih (k + 1),
      List.map_cons]

theorem countSC_deltas (ds : List String) :
    (ds.map Frame.stream_text_delta).countP isSC = 0 := by
  rw [List.countP_eq_zero]
  intro f hf
  rw [List.mem_map] at hf
  obtain ⟨d2, _, hfd⟩ := hf
  subst hfd
  simp [isSC]

theorem countSC_turnShape (s : Nat) (ds : List String) :
    (Frame.stream_start ::
      (ds.map Frame.stream_text_delta ++ [Frame.stream_done s])).countP isSC = 0 := by
  rw [List.countP_cons, List.countP_append, countSC_deltas]
  simp [isSC, List.countP_cons]

theorem countSC_join_map (s : Nat) (ts : List Turn) :
    ((ts.map (fun tn => Frame.stream_start ::
      (tn.deltas.map Frame.stream_text_delta ++ [Frame.stream_done s]))).flatten.countP
        isSC) = 0 := by
  induction ts with
  | nil => rfl
  | cons t ts2 ih =>
    rw [List.map_cons, List.flatten_cons, List.countP_append, countSC_turnShape, ih]

/-- C1: over any sequence of welcome/input turns on one chat socket,
`session_created` is emitted at most once; when the connection carries a
pre-existing sessionId every turn is exactly `stream_start`, the deltas and
a `stream_done` carrying that sessionId — `session_created` never appears;
when it carries none, the first turn emits `session_created` with the
freshly created id strictly before its `stream_start`, and no later turn
emits it. -/
theorem chat_session_created_spec (fresh : Nat → Nat) (turns : List Turn) :
    (∀ sid, runTurns (some sid) fresh turns none 0 =
      turns.map (fun tn => Frame.stream_start ::
        (tn.deltas.map Frame.stream_text_delta ++ [Frame.stream_done sid]))) ∧
    (∀ t0 rest, turns = t0 :: rest →
      runTurns none fresh turns none 0 =
        (Frame.session_created (fresh 0) :: Frame.stream_start ::
          (t0.deltas.map Frame.stream_text_delta ++ [Frame.stream_done (fresh 0)])) ::
        rest.map (fun tn => Frame.stream_start ::
          (tn.deltas.map Frame.stream_text_delta ++ [Frame.stream_done (fresh 0)]))) ∧
    (∀ d, ((runTurns d fresh turns none 0).flatten.countP isSC) ≤ 1) ∧
    (∀ sid, ∀ fs ∈ runTurns (some sid) fresh turns none 0, fs.countP isSC = 0) := by
  have hsome : ∀ sid, runTurns (some sid) fresh turns none 0 =
      turns.map (fun tn => Frame.stream_start ::
        (tn.deltas.map Frame.stream_text_delta ++ [Frame.stream_done sid])) := by
    intro sid
    cases turns with
    | nil => rfl
    | cons t0 rest =>
      have h0 : runTurns (some sid) fresh (t0 :: rest) none 0 =
          (respondWithStream (some sid) none (fresh 0) t0.userMsg t0.deltas).frames ::
            runTurns (some sid) fresh rest
              (respondWithStream (some sid) none (fresh 0) t0.userMsg t0.deltas).newState
              1 := rfl
      have h1 : (respondWithStream (some sid) none (fresh 0) t0.userMsg t0.deltas).frames =
          Frame.stream_start ::
            (t0.deltas.map Frame.stream_text_delta ++ [Frame.stream_done sid]) := rfl
      have h2 : (respondWithStream (some sid) none (fresh 0) t0.userMsg t0.deltas).newState =
          some sid := rfl
      rw [h0, h1, h2, runTurns_some (some sid) fresh rest sid 1, List.map_cons]
  have hnone : ∀ t0 rest, turns = t0 :: rest →
      runTurns none fresh turns none 0 =
        (Frame.session_created (fresh 0) :: Frame.stream_start ::
          (t0.deltas.map Frame.stream_text_delta ++ [Frame.stream_done (fresh 0)])) ::
        rest.map (fun tn => Frame.stream_start ::
          (tn.deltas.map Frame.stream_text_delta ++ [Frame.stream_done (fresh 0)])) := by
    intro t0 rest hts
    subst hts
    have h0 : runTurns none fresh (t0 :: rest) none 0 =
        (respondWithStream none none (fresh 0) t0.userMsg t0.deltas).frames ::
          runTurns none fresh rest
            (respondWithStream none none (fresh 0) t0.userMsg t0.deltas).newState
            1 := rfl
    have h1 : (respondWithStream none none (fresh 0) t0.userMsg t0.deltas).frames =
        Frame.session_created (fresh 0) :: Frame.stream_start ::
          (t0.deltas.map Frame.stream_text_delta ++ [Frame.stream_done (fresh 0)]) := rfl
    have h2 : (respondWithStream none none (fresh 0) t0.userMsg t0.deltas).newState =
        some (fresh 0) := rfl
    rw [h0, h1, h2, runTurns_some none fresh rest (fresh 0) 1]
  refine ⟨hsome, hnone, ?_, ?_⟩
  · intro d
    cases d with
    | some sid =>
      rw [hsome sid, countSC_join_map]
      omega
    | none =>
      cases turns with
      | nil => exact Nat.zero_le 1
      | cons t0 rest =>
        rw [hnone t0 rest rfl, List.flatten_cons, List.countP_append, countSC_join_map]
        have hfirst : (Frame.session_created (fresh 0) :: Frame.stream_start ::
            (t0.deltas.map Frame.stream_text_delta ++
              [Frame.stream_done (fresh 0)])).countP isSC = 1 := by
          rw [List.countP_cons, List.countP_cons, List.countP_append, countSC_deltas]
          simp [isSC, List.countP_cons]
        rw [hfirst]
  · intro sid fs hfs
    rw [hsome sid, List.mem_map] at hfs
    obtain ⟨tn, _, hfst⟩ := hfs
    subst hfst
    exact countSC_turnShape sid tn.deltas

/-- Witness for C1: two turns evaluated with and without a pre-existing
sessionId. -/
theorem chat_session_created_spec_witness :
    runTurns (some 7) wFresh wTurns none 0 =
      wTurns.map (fun tn => Frame.stream_start ::
        (tn.deltas.map Frame.stream_text_delta ++ [Frame.stream_done 7])) ∧
    ((runTurns none wFresh wTurns none 0).flatten.countP isSC) ≤ 1 :=
  ⟨(chat_session_created_spec wFresh wTurns).1 7,
    (chat_session_created_spec wFresh wTurns).2.2.1 none⟩

/-- C9 (code bug): on every completed turn the source persists the
assistant message unconditionally — including a turn whose accumulated
stream text trims to the empty string, which the spec says must not be
persisted. -/
theorem respondWithStream_persists_empty (dataSessionId stateSession : Option Nat)
    (fresh : Nat) (userMsg : Option String) (deltas : List String)
    (hempty : jsTrim (String.join deltas) = "") :
    ("assistant", "") ∈
      (respondWithStream dataSessionId stateSession fresh userMsg deltas).savedMessages := by
  unfold respondWithStream
  cases userMsg <;> simp [hempty]

/-- Witness for C9: a completed turn of pure whitespace persists
`(assistant, "")`. -/
theorem respondWithStream_persists_empty_witness :
    jsTrim (String.join ["  "]) = "" ∧
    ("assistant", "") ∈ (respondWithStream none none 5 none ["  "]).savedMessages :=
  ⟨by decide, respondWithStream_persists_empty none none 5 none ["  "] (by decide)⟩

-- -------- C6: parse failures on a text frame --------

/-- C6: when an incoming text frame fails to parse or validate, the handler
sends exactly one error frame, does not close the connection, queues no
work and signals no abort; a `SyntaxError` maps to exactly the string
`invalid JSON`, and a Zod error joins its issues as `path: message` lines
with `root` for an empty path. -/
theorem wsParseError_spec (maidId : String) (maidKnown : Bool) (e : ParseErr) :
    handleTextFrame maidId maidKnown (Except.error e) =
      ⟨[Frame.error (formatParseError e)], false, [], false⟩ ∧
    formatParseError ParseErr.syntaxErr = "invalid JSON" ∧
    (∀ issues, formatParseError (ParseErr.zodErr issues) =
      joinNl (issues.map (fun i =>
        (if i.path.isEmpty then "root" else joinSep "." i.path) ++ ": " ++ i.message))) :=
  ⟨rfl, rfl, fun _ => rfl⟩

/-- Witness for C6: a syntax error and a two-issue Zod error evaluated. -/
theorem wsParseError_spec_witness :
    handleTextFrame wMaidId true (Except.error ParseErr.syntaxErr) =
      ⟨[Frame.error "invalid JSON"], false, [], false⟩ ∧
    formatParseError (ParseErr.zodErr wIssues) = "root: Required\ncontent: too small" := by
  refine ⟨?_, ?_⟩
  · rw [(wsParseError_spec wMaidId true ParseErr.syntaxErr).1,
      (wsParseError_spec wMaidId true ParseErr.syntaxErr).2.1]
  · rw [(wsParseError_spec wMaidId true ParseErr.syntaxErr).2.2 wIssues]
    rfl

-- -------- C8: extractMemory short-circuits --------

/-- C8: `extractMemory` short-circuits without touching memories: with no
pending (extractedAt IS NULL) messages it returns all-zero stats and
performs no writes at all; with pending messages but an empty extracted
fact set it returns all-zero stats and only marks the snapshot ids
extracted — `markMessagesExtracted` never changes the memories table, sets
`extractedAt = now` on exactly the rows whose id is in the snapshot, and
leaves every other row unchanged. -/
theorem extractMemory_spec (factOracle : String → String)
    (deep : Db → List String → Except Unit (Db × ExtractionResult))
    (db : Db) (now : Nat) :
    (db.messages.filter (fun m => m.extractedAt.isNone) = [] →
      extractMemory factOracle deep db now = Except.ok (db, zeroResult)) ∧
    (pendingRows db ≠ [] →
      extractFacts factOracle (joinPending (pendingRows db)) = [] →
      extractMemory factOracle deep db now =
        Except.ok (markMessagesExtracted db ((pendingRows db).map (fun r => r.id)) now,
          zeroResult)) ∧
    (∀ ids, (markMessagesExtracted db ids now).memories = db.memories) ∧
    (∀ ids m, m ∈ db.messages →
      (ids.contains m.id = true →
        { m with extractedAt := some now } ∈ (markMessagesExtracted db ids now).messages) ∧
      (ids.contains m.id = false →
        m ∈ (markMessagesExtracted db ids now).messages)) := by
  refine ⟨?_, ?_, ?_, ?_⟩
  · intro h
    unfold extractMemory pendingRows
    rw [h]
    rfl
  · intro hne hfacts
    have hid : ((pendingRows db).map (fun r => r.id)).isEmpty = false := by
      cases hp : pendingRows db with
      | nil => exact absurd hp hne
      | cons x xs => rfl
    dsimp only [extractMemory]
    rw [hid]
    simp only [Bool.false_eq_true, if_false]
    rw [hfacts]
    rfl
  · intro ids
    unfold markMessagesExtracted
    split
    · rfl
    · rfl
  · intro ids m hm
    constructor
    · intro hc
      have hne2 : ids.isEmpty = false := by
        cases hids : ids with
        | nil =>
          rw [hids] at hc
          cases hc
        | cons y ys => rfl
      unfold markMessagesExtracted
      rw [if_neg (by rw [hne2]; exact fun h => by cases h)]
      have h3 := List.mem_map_of_mem (fun m2 =>
        if ids.contains m2.id then { m2 with extractedAt := some now } else m2) hm
      simp only [hc, if_true] at h3
      exact h3
    · intro hc
      unfold markMessagesExtracted
      split
      · exact hm
      · have h3 := List.mem_map_of_mem (fun m2 =>
          if ids.contains m2.id then { m2 with extractedAt := some now } else m2) hm
        simp only [hc, Bool.false_eq_true, if_false] at h3
        exact h3

/-- Witness for C8: both short-circuits evaluated — a fully-extracted
database, then one pending message with a `NONE` fact answer. -/
theorem extractMemory_spec_witness :
    extractMemory wFactOracle wDeep wDbA 50 = Except.ok (wDbA, zeroResult) ∧
    extractMemory wFactOracle wDeep wDbB 50 =
      Except.ok (markMessagesExtracted wDbB ((pendingRows wDbB).map (fun r => r.id)) 50,
        zeroResult) :=
  ⟨(extractMemory_spec wFactOracle wDeep wDbA 50).1 (by decide),
    (extractMemory_spec wFactOracle wDeep wDbB 50).2.1 (by decide) (by decide)⟩

end Maid
